import Mathlib

/-!
Verification of the branch-topology renderer (`git_map_branches.py`).

The Python program is shallowly embedded: dictionaries become association
lists, Python exceptions become an explicit `PyErr` error type threaded
through `Except`, and the recursive depth-first traversal is given explicit
fuel (the traversal consumes one parent-map entry per productive step, so
fuel `parent_map.length + 1` is enough; a theorem below shows the
out-of-fuel marker is unreachable).

External collaborators (`git_common.get_branches_info`, `upstream`,
`hash_one`, `tags`, `current_branch`, the review-status source and
`run('log', ...)`) are not part of the repository sources; following the
spec's interface contracts (spec section 6) they are modelled as an `Env`
of injected data sources.
-/

namespace GitMapBranches

/- colorama foreground escape codes, as concrete strings. -/
namespace Fore

def RED : String := "\x1b[31m"

def GREEN : String := "\x1b[32m"

def BLUE : String := "\x1b[34m"

def MAGENTA : String := "\x1b[35m"

def CYAN : String := "\x1b[36m"

def WHITE : String := "\x1b[37m"

end Fore

/- colorama style escape codes. -/
namespace Style

def BRIGHT : String := "\x1b[1m"

def NORMAL : String := "\x1b[22m"

end Style

def DEFAULT_SEPARATOR : String := "    "

/-- Python's `(n * ' ')` for non-negative n (negative counts give `''`,
matched here by truncated subtraction producing `0`). -/
def spaces (n : Nat) : String := String.mk (List.replicate n ' ')

/-- Python `str.startswith`, computed on the underlying character lists. -/
def startsWithPy (s pre : String) : Bool := pre.data.isPrefixOf s.data

/-- Lexicographic comparison of character lists (Python string `<=`). -/
def charListLe : List Char → List Char → Bool
  | [], _ => true
  | _ :: _, [] => false
  | a :: as_, b :: bs => if a < b then true else if b < a then false else charListLe as_ bs

/-- Python string comparison used by `sorted`. -/
def strLe (a b : String) : Bool := charListLe a.data b.data

/-- Python `'\n'.join`. -/
def joinWithNewlines : List String → String
  | [] => ""
  | [l] => l
  | l :: ls => l ++ "\n" ++ joinWithNewlines ls

/-- Characters stripped by Python's `str.rstrip()`. -/
def pyIsSpace (c : Char) : Bool :=
  c == ' ' || c == '\t' || c == '\n' || c == '\r' || c == '\x0b' || c == '\x0c'

def rstripList (s : List Char) : List Char :=
  (s.reverse.dropWhile pyIsSpace).reverse

/-- Python `str.rstrip()`. -/
def pyRstrip (s : String) : String := String.mk (rstripList s.data)

/-- One entry of `get_branches_info`: the branch hash, upstream name and
ahead/behind counts (`ahead`/`behind` are `0` when absent, matching Python
falsiness of `None` and `0`). -/
structure BranchInfo where
  hash : String
  upstream : String
  ahead : Nat
  behind : Nat
deriving DecidableEq, Repr

/-- The bulk branch map: a Python dict `name -> BranchesInfo | None`.
A key bound to `none` is the "known but external" empty entry. -/
abbrev BranchesDict := List (String × Option BranchInfo)

/-- Python dict subscript `d[k]`: `none` means the key is absent
(a `KeyError` at use sites), `some v` is the stored value. -/
def dictGet (m : BranchesDict) (k : String) : Option (Option BranchInfo) :=
  match m.find? (fun p => p.1 == k) with
  | some p => some p.2
  | none => none

/-- Lookup in a generic association list. -/
def lookupList {α : Type} (m : List (String × α)) (k : String) : Option α :=
  match m.find? (fun p => p.1 == k) with
  | some p => some p.2
  | none => none

/-- Python `set.add`: append the element unless already present. -/
def setAdd (l : List String) (s : String) : List String :=
  if l.contains s then l else l ++ [s]

/-- `collections.defaultdict(list)` update `pm[k].append(v)`. -/
def pmAppend (pm : List (String × List String)) (k v : String) :
    List (String × List String) :=
  match pm with
  | [] => [(k, [v])]
  | (k2, vs) :: rest =>
      if k2 == k then (k2, vs ++ [v]) :: rest
      else (k2, vs) :: pmAppend rest k v

/-- Python `dict.pop(k, ...)` without the default: the popped value and the
dict with that entry removed, or `none` when the key is absent. -/
def popMap (pm : List (String × List String)) (k : String) :
    Option (List String × List (String × List String)) :=
  match pm with
  | [] => none
  | (k2, cs) :: rest =>
      if k2 == k then some (cs, rest)
      else
        match popMap rest k with
        | none => none
        | some (cs2, rest2) => some (cs2, (k2, cs) :: rest2)

/-- Python `self.__parent_map.pop(branch, ())`. -/
def popD (pm : List (String × List String)) (k : String) :
    List String × List (String × List String) :=
  match popMap pm k with
  | none => ([], pm)
  | some r => r

/-- Insertion step of `sorted` on strings. -/
def insertSorted (s : String) : List String → List String
  | [] => [s]
  | t :: ts => if strLe s t then s :: t :: ts else t :: insertSorted s ts

/-- Python `sorted` on a list of strings (ascending, insertion sort). -/
def sortStrings : List String → List String
  | [] => []
  | s :: ss => insertSorted s (sortStrings ss)

/-- Python exceptions that the embedded code can raise, plus the fuel
marker used to make the recursive traversal structurally total. -/
inductive PyErr where
  | keyError
  | typeError
  | assertionError
  | calledProcessError
  | outOfFuel
deriving DecidableEq, Repr

/-- `OutputLine`: parallel lists of column texts, separators and colors. -/
structure OutputLine where
  columns : List String
  separators : List String
  colors : List String
deriving DecidableEq, Repr

/-- `OutputLine.__init__`. -/
def OutputLine.mkEmpty : OutputLine := ⟨[], [], []⟩

/-- `OutputLine.append(data, separator, color)` (the Python defaults
`DEFAULT_SEPARATOR` and `Fore.WHITE` are passed explicitly at call sites). -/
def OutputLine.append (l : OutputLine) (data separator color : String) :
    OutputLine :=
  { columns := l.columns ++ [data]
    separators := l.separators ++ [separator]
    colors := l.colors ++ [color] }

/-- Zip of the three parallel per-cell lists. -/
def zip3 {α β γ : Type} : List α → List β → List γ → List (α × β × γ)
  | a :: as_, b :: bs, c :: cs => (a, b, c) :: zip3 as_ bs cs
  | _, _, _ => []

/-- Body of `OutputLine.as_padded_string`: one `color + data + padding +
separator` chunk per cell, skipping columns whose maximum width is zero. -/
def paddedCells : List (String × String × String) → List Nat → String
  | (color, data, separator) :: rest, m :: ms =>
      (if m == 0 then "" else color ++ data ++ spaces (m - data.length) ++ separator)
        ++ paddedCells rest ms
  | _, _ => ""

/-- `OutputLine.as_padded_string(max_column_lengths)`. -/
def OutputLine.as_padded_string (l : OutputLine) (maxLens : List Nat) : String :=
  pyRstrip (paddedCells (zip3 l.colors l.columns l.separators) maxLens)

/-- `OutputManager` state. -/
structure OutputManager where
  lines : List OutputLine
  nocolor : Bool
  max_column_lengths : List Nat
  num_columns : Option Nat
deriving DecidableEq, Repr

/-- `OutputManager.__init__` (with `nocolor` assigned as in `main`). -/
def OutputManager.init (nocolor : Bool) : OutputManager :=
  ⟨[], nocolor, [], none⟩

/-- `OutputManager.append(line)`: sets `num_columns` from the first line
(a falsy stored value, `None` or `0`, is replaced), asserts the column
count matches, wipes colors in no-color mode and updates column maxima. -/
def OutputManager.append (m : OutputManager) (line : OutputLine) :
    Except PyErr OutputManager :=
  let falsy : Bool := match m.num_columns with
    | none => true
    | some n => n == 0
  let nc : Nat := if falsy then line.columns.length
    else match m.num_columns with
      | some n => n
      | none => 0
  let maxes : List Nat := if falsy then List.replicate nc 0
    else m.max_column_lengths
  if nc == line.columns.length then
    let line2 := if m.nocolor then { line with colors := List.replicate nc "" }
      else line
    Except.ok
      { m with
        num_columns := some nc
        lines := m.lines ++ [line2]
        max_column_lengths :=
          List.zipWith max maxes (line2.columns.map String.length) }
  else Except.error PyErr.assertionError

/-- `OutputManager.as_formatted_string()`. -/
def OutputManager.as_formatted_string (m : OutputManager) : String :=
  joinWithNewlines
    (m.lines.map (fun l => l.as_padded_string m.max_column_lengths))

/-- The external collaborators of the renderer, per the spec's interface
contracts (spec section 6): the bulk branch listing, on-demand upstream
resolution (`none` models a falsy result), `hash_one` (`none` models the
`CalledProcessError` raise), the current branch and tag set, the review
status source (url and status color per branch) and the commit-subject
lookup. -/
structure Env where
  get_branches_info : Bool → BranchesDict
  upstream : String → Option String
  hash_one : String → Option String
  current_branch : String
  tags : List String
  status_info : String → Option String × String
  log_subject : String → String

/-- The configuration surface taken from the CLI options. -/
structure Config where
  verbosity : Nat
  show_subject : Bool
  nocolor : Bool

/-- `BranchMapper` state after `start` has gathered its inputs. -/
structure BranchMapper where
  verbosity : Nat
  show_subject : Bool
  output : OutputManager
  gone_branches : List String
  branches_info : BranchesDict
  parent_map : List (String × List String)
  current_branch : String
  current_hash : String
  tag_set : List String
  status_info : String → Option String × String

/-- `BranchMapper.__is_invalid_parent`: `not parent or parent in gone`. -/
def BranchMapper.is_invalid_parent (m : BranchMapper) (parent : String) : Bool :=
  parent == "" || m.gone_branches.contains parent

/-- `BranchMapper.__color_for_branch`.  A `none` hash reaching the
`current_hash.startswith(branch_hash)` test is the Python
`TypeError: startswith first arg must be str`. -/
def BranchMapper.color_for_branch (m : BranchMapper) (branch : String)
    (branch_hash : Option String) : Except PyErr String :=
  let colorE : Except PyErr String :=
    if startsWithPy branch "origin" then Except.ok Fore.RED
    else if startsWithPy branch "branch-heads" then Except.ok Fore.BLUE
    else if m.is_invalid_parent branch || m.tag_set.contains branch then
      Except.ok Fore.MAGENTA
    else
      match branch_hash with
      | none => Except.error PyErr.typeError
      | some h =>
          if startsWithPy m.current_hash h then Except.ok Fore.CYAN
          else Except.ok Fore.GREEN
  match colorE with
  | Except.error e => Except.error e
  | Except.ok color =>
      let bright : Bool := match branch_hash with
        | some h => h != "" && startsWithPy m.current_hash h
        | none => false
      Except.ok (color ++ (if bright then Style.BRIGHT else Style.NORMAL))

/-- Two-space indent repeated `depth` times. -/
def indentOf (depth : Nat) : String := String.mk (List.replicate (2 * depth) ' ')

/-- The five tracking-status sub-cells (lines 230-249 of the source):
`front_separator`, `ahead_string`, `center_separator`, `behind_string`,
`back_separator`, all empty unless the branch has a truthy entry with a
valid (non-gone, non-empty) upstream. -/
def tracking_strings (m : BranchMapper) (branch_info : Option BranchInfo) :
    String × String × String × String × String :=
  match branch_info with
  | some bi =>
      if !(m.is_invalid_parent bi.upstream) then
        let ahead := bi.ahead
        let behind := bi.behind
        let ahead_string := if ahead != 0 then "ahead " ++ toString ahead else ""
        let behind_string := if behind != 0 then "behind " ++ toString behind else ""
        let front_separator := if ahead != 0 || behind != 0 then "[" else ""
        let back_separator := if ahead != 0 || behind != 0 then "]" else ""
        let center_separator := if ahead != 0 && behind != 0 then "|" else ""
        (front_separator, ahead_string, center_separator, behind_string, back_separator)
      else ("", "", "", "", "")
  | none => ("", "", "", "", "")

/-- The straight-line body of `BranchMapper.__append_branch` (lines 198-267):
build the `OutputLine` for one branch.  Errors: `keyError` when the branch
name is not a key of the bulk map (line 198), and the `typeError` surfaced
by `__color_for_branch`. -/
def renderLine (env : Env) (m : BranchMapper) (branch : String) (depth : Nat) :
    Except PyErr OutputLine :=
  match dictGet m.branches_info branch with
  | none => Except.error PyErr.keyError
  | some branch_info =>
      let branch_hash : Option String :=
        match branch_info with
        | some bi => some bi.hash
        | none => env.hash_one branch
      let suffix : String :=
        if branch == m.current_branch
            || (m.current_branch == "HEAD" && branch == m.current_hash) then " *"
        else ""
      let branch_string1 : String :=
        if m.gone_branches.contains branch then "\x7b" ++ branch ++ ":GONE\x7d"
        else branch
      let branch_string : String :=
        if branch == "" then "\x7bNO_UPSTREAM\x7d" else branch_string1
      let main_string := indentOf depth ++ branch_string ++ suffix
      match m.color_for_branch branch branch_hash with
      | Except.error e => Except.error e
      | Except.ok color =>
          let line := OutputLine.mkEmpty.append main_string DEFAULT_SEPARATOR color
          let line :=
            if 2 ≤ m.verbosity then
              line.append (branch_hash.getD "") " " Fore.RED
            else line
          let line :=
            if 1 ≤ m.verbosity then
              let ts := tracking_strings m branch_info
              (((((line.append ts.1 " " Fore.WHITE).append
                    ts.2.1 " " Fore.MAGENTA).append
                    ts.2.2.1 " " Fore.WHITE).append
                    ts.2.2.2.1 " " Fore.MAGENTA).append
                    ts.2.2.2.2 DEFAULT_SEPARATOR Fore.WHITE)
            else line
          let line :=
            if 2 ≤ m.verbosity then
              let none_text := if m.is_invalid_parent branch then "" else "None"
              let st := m.status_info branch
              let text : String :=
                match st.1 with
                | some u => if u == "" then none_text else u
                | none => none_text
              line.append text DEFAULT_SEPARATOR st.2
            else line
          let line :=
            if m.show_subject then
              line.append (env.log_subject branch) DEFAULT_SEPARATOR Fore.WHITE
            else line
          Except.ok line

/-- Replace only the mutable parts of the mapper state (the output
accumulator and the parent map); everything `renderLine` reads is static
during the traversal. -/
def BranchMapper.withOP (m : BranchMapper) (o : OutputManager)
    (pm : List (String × List String)) : BranchMapper :=
  { m with output := o, parent_map := pm }

/-- Error-propagating iteration of a visit body over a children list
(the `for child in sorted(...)` loop of `__append_branch`). -/
def foldChildren (f : BranchMapper → String → Except PyErr BranchMapper) :
    BranchMapper → List String → Except PyErr BranchMapper
  | m, [] => Except.ok m
  | m, c :: cs =>
      match f m c with
      | Except.error e => Except.error e
      | Except.ok m2 => foldChildren f m2 cs

/-- `BranchMapper.__append_branch`: render one branch, append the line,
pop the branch's children list and recurse over the sorted children. -/
def append_branch (env : Env) (fuel : Nat) (m : BranchMapper)
    (branch : String) (depth : Nat) : Except PyErr BranchMapper :=
  match fuel with
  | 0 => Except.error PyErr.outOfFuel
  | Nat.succ fuel2 =>
      match renderLine env m branch depth with
      | Except.error e => Except.error e
      | Except.ok line =>
          match m.output.append line with
          | Except.error e => Except.error e
          | Except.ok out2 =>
              let pr := popD m.parent_map branch
              foldChildren (fun m2 c => append_branch env fuel2 m2 c (depth + 1))
                (m.withOP out2 pr.2) (sortStrings pr.1)
termination_by structural fuel

/-- Lines 148-157 of `start`, for one branch with a truthy entry: the
effective parent, whether it is registered as a root, and whether the
recorded upstream is marked gone.  Accessing a recorded upstream that is
not a key of the bulk map is the `KeyError` of line 149. -/
def resolveParent (env : Env) (binfo : BranchesDict) (branch : String)
    (bi : BranchInfo) : Except PyErr (String × Bool × Bool) :=
  match dictGet binfo bi.upstream with
  | none => Except.error PyErr.keyError
  | some (some _) => Except.ok (bi.upstream, false, false)
  | some none =>
      match env.upstream branch with
      | some u =>
          if u != "" then Except.ok (u, true, false)
          else Except.ok (bi.upstream, true, true)
      | none => Except.ok (bi.upstream, true, true)

/-- The topology-building loop of `start` (lines 141-159), folded over the
bulk map's entries: accumulates the root set, the gone set and the
parent-to-children map. -/
def buildFold (env : Env) (binfo : BranchesDict) :
    List (String × Option BranchInfo) →
    List String × List String × List (String × List String) →
    Except PyErr (List String × List String × List (String × List String))
  | [], acc => Except.ok acc
  | (branch, info) :: rest, (roots, gone, pm) =>
      match info with
      | none => buildFold env binfo rest (roots, gone, pm)
      | some bi =>
          match resolveParent env binfo branch bi with
          | Except.error e => Except.error e
          | Except.ok (parent, isRoot, markGone) =>
              let gone2 := if markGone then setAdd gone bi.upstream else gone
              let roots2 := if isRoot then setAdd roots parent else roots
              buildFold env binfo rest (roots2, gone2, pmAppend pm parent branch)

/-- `build` part of `BranchMapper.start`: roots, gone set, parent map. -/
def buildMaps (env : Env) (binfo : BranchesDict) :
    Except PyErr (List String × List String × List (String × List String)) :=
  buildFold env binfo binfo ([], [], [])

/-- The `for root in sorted(roots)` loop of `start`.  Each call receives
fuel `parent_map.length + 1`; `traversal_total` below shows this fuel is
always sufficient. -/
def rootsLoop (env : Env) : List String → BranchMapper → Except PyErr BranchMapper
  | [], m => Except.ok m
  | r :: rs, m =>
      match append_branch env (m.parent_map.length + 1) m r 0 with
      | Except.error e => Except.error e
      | Except.ok m2 => rootsLoop env rs m2

/-- `BranchMapper.start` (with the configuration assignments of `main`):
gather the collaborator data, build the topology, then either render the
forest from its sorted roots or emit the `'No User Branches'` sentinel. -/
def start (env : Env) (cfg : Config) : Except PyErr OutputManager :=
  let binfo := env.get_branches_info (decide (1 ≤ cfg.verbosity))
  match buildMaps env binfo with
  | Except.error e => Except.error e
  | Except.ok (roots, gone, pm) =>
      match env.hash_one "HEAD" with
      | none => Except.error PyErr.calledProcessError
      | some curHash =>
          let m : BranchMapper :=
            { verbosity := cfg.verbosity
              show_subject := cfg.show_subject
              output := OutputManager.init cfg.nocolor
              gone_branches := gone
              branches_info := binfo
              parent_map := pm
              current_branch := env.current_branch
              current_hash := curHash
              tag_set := env.tags
              status_info :=
                if 2 ≤ cfg.verbosity then env.status_info
                else fun _ => (none, "") }
          match roots with
          | [] =>
              let no_branches :=
                OutputLine.mkEmpty.append "No User Branches" DEFAULT_SEPARATOR Fore.WHITE
              match m.output.append no_branches with
              | Except.error e => Except.error e
              | Except.ok out => Except.ok out
          | _ :: _ =>
              match rootsLoop env (sortStrings roots) m with
              | Except.error e => Except.error e
              | Except.ok m2 => Except.ok m2.output

/-- `print mapper.output.as_formatted_string()`. -/
def main_output (env : Env) (cfg : Config) : Except PyErr String :=
  (start env cfg).map OutputManager.as_formatted_string

/-- State-threading iteration of a visit body over a children list, on the
visit level. -/
def foldVisits
    (f : List (String × List String) → String →
      List (String × Nat) × List (String × List String)) :
    List (String × List String) → List String →
    List (String × Nat) × List (String × List String)
  | pm, [] => ([], pm)
  | pm, c :: cs =>
      let r1 := f pm c
      let r2 := foldVisits f r1.2 cs
      (r1.1 ++ r2.1, r2.2)

/-- Pure mirror of the traversal of `__append_branch`: the pre-order list
of `(branch, depth)` visits together with the consumed parent map. -/
def visit_branch (fuel : Nat) (pm : List (String × List String))
    (branch : String) (depth : Nat) :
    List (String × Nat) × List (String × List String) :=
  match fuel with
  | 0 => ([], pm)
  | Nat.succ fuel2 =>
      let pr := popD pm branch
      let r := foldVisits (fun pm2 c => visit_branch fuel2 pm2 c (depth + 1))
        pr.2 (sortStrings pr.1)
      ((branch, depth) :: r.1, r.2)
termination_by structural fuel

/-- Mirror of `rootsLoop` on the visit level. -/
def visits_roots : List String → List (String × List String) →
    List (String × Nat) × List (String × List String)
  | [], pm => ([], pm)
  | r :: rs, pm =>
      let r1 := visit_branch (pm.length + 1) pm r 0
      let r2 := visits_roots rs r1.2
      (r1.1 ++ r2.1, r2.2)

/-- Roots, gone set and parent map computed by `start` (dummy empty values
when the build raises). -/
def built (env : Env) (cfg : Config) :
    List String × List String × List (String × List String) :=
  match buildMaps env (env.get_branches_info (decide (1 ≤ cfg.verbosity))) with
  | Except.ok r => r
  | Except.error _ => ([], [], [])

/-- The mapper state as assembled by `start` before the traversal
(`none` when the build or the `hash_one('HEAD')` lookup raises). -/
def mapper0 (env : Env) (cfg : Config) : Option BranchMapper :=
  let binfo := env.get_branches_info (decide (1 ≤ cfg.verbosity))
  match buildMaps env binfo with
  | Except.error _ => none
  | Except.ok (_, gone, pm) =>
      match env.hash_one "HEAD" with
      | none => none
      | some curHash =>
          some
            { verbosity := cfg.verbosity
              show_subject := cfg.show_subject
              output := OutputManager.init cfg.nocolor
              gone_branches := gone
              branches_info := binfo
              parent_map := pm
              current_branch := env.current_branch
              current_hash := curHash
              tag_set := env.tags
              status_info :=
                if 2 ≤ cfg.verbosity then env.status_info
                else fun _ => (none, "") }

/-- The `(branch, depth)` visit order of the whole run. -/
def run_visits (env : Env) (cfg : Config) : List (String × Nat) :=
  match built env cfg with
  | ([], _, _) => []
  | (roots, _, pm) => (visits_roots (sortStrings roots) pm).1

/-- The column texts of the row rendered for one visit. -/
def rendered_columns (env : Env) (m : BranchMapper) (p : String × Nat) :
    List String :=
  match renderLine env m p.1 p.2 with
  | Except.ok l => l.columns
  | Except.error _ => []

/-- The fixed column count of every branch row for a given configuration. -/
def num_columns_for (verbosity : Nat) (show_subject : Bool) : Nat :=
  1 + (if 2 ≤ verbosity then 1 else 0) + (if 1 ≤ verbosity then 5 else 0)
    + (if 2 ≤ verbosity then 1 else 0) + (if show_subject then 1 else 0)

/-- ANSI-escape remover: in the normal state (`false`) keep characters and
enter escape state on ESC; in the escape state drop characters up to and
including the terminating `m`. -/
def stripAux : Bool → List Char → List Char
  | _, [] => []
  | false, c :: cs =>
      if c == '\x1b' then stripAux true cs else c :: stripAux false cs
  | true, c :: cs =>
      if c == 'm' then stripAux false cs else stripAux true cs

/-- The state of the escape-removing automaton after consuming a list. -/
def stripState : Bool → List Char → Bool
  | b, [] => b
  | false, c :: cs => stripState (if c == '\x1b' then true else false) cs
  | true, c :: cs => stripState (if c == 'm' then false else true) cs

/-- Remove all color escape sequences from a string. -/
def stripEscapes (s : String) : String := String.mk (stripAux false s.data)

/-- Append a whole list of lines to an output manager. -/
def append_all (m : OutputManager) : List OutputLine → Except PyErr OutputManager
  | [] => Except.ok m
  | l :: ls =>
      match m.append l with
      | Except.error e => Except.error e
      | Except.ok m2 => append_all m2 ls

/-- How many visits of the traversal are to the named branch. -/
def countNames (vs : List (String × Nat)) (b : String) : Nat :=
  (vs.map Prod.fst).count b

/-- Total number of occurrences of a name across all children lists. -/
def pmCountAll (pm : List (String × List String)) (b : String) : Nat :=
  (pm.map (fun e => e.2.count b)).sum

/-- The keys of the parent map. -/
def keysOf (pm : List (String × List String)) : List String :=
  pm.map Prod.fst

/-- The parent the builder assigns to a branch with a truthy entry
(`none` when the branch has no truthy entry or the builder would raise). -/
def computed_parent (env : Env) (binfo : BranchesDict) (branch : String) :
    Option String :=
  match dictGet binfo branch with
  | some (some bi) =>
      match resolveParent env binfo branch bi with
      | Except.ok r => some r.1
      | Except.error _ => none
  | _ => none

/-- The chain of computed parents starting at `b` reaches a name without a
truthy entry within the given number of steps.  This is the acyclicity
condition of the tracking graph: a self-tracking branch or an upstream
cycle never reaches such an anchor. -/
def reaches_root (env : Env) (binfo : BranchesDict) : Nat → String → Bool
  | 0, _ => false
  | Nat.succ n, b =>
      match dictGet binfo b with
      | some (some _) =>
          match computed_parent env binfo b with
          | some p => reaches_root env binfo n p
          | none => false
      | _ => true

/-- Number of truthy entries of the bulk map listing a given name. -/
def countFull (l : List (String × Option BranchInfo)) (x : String) : Nat :=
  (l.filter (fun e => (e.1 == x) && e.2.isSome)).length

/-- A character that cannot start an escape sequence. -/
def notEsc (c : Char) : Bool := !(c == '\x1b')

/-- A string with no escape character at all (ordinary cell text). -/
def plainOk (s : String) : Bool := s.data.all notEsc

/-- A string that is purely a (sequence of) complete color escape
sequences: the remover consumes it entirely and ends in the normal
state. -/
def colorOk (s : String) : Bool :=
  (stripAux false s.data).isEmpty && !(stripState false s.data)

/-- A renderable line: colors are pure escape sequences, cell texts and
separators are escape-free, and the three per-cell lists are aligned. -/
def wellFormedLine (l : OutputLine) : Bool :=
  l.colors.all colorOk && l.columns.all plainOk && l.separators.all plainOk &&
    (l.colors.length == l.columns.length) &&
    (l.separators.length == l.columns.length)

/-- The line as stored by a no-color manager: colors wiped. -/
def wipeLine (l : OutputLine) : OutputLine :=
  { l with colors := List.replicate l.columns.length "" }

/-- Side condition for the at-most-once guarantee: the bulk map's keys are
duplicate-free (a dict invariant), the build succeeds, and no computed
root also occurs in a children list (in the source this can fail only via
live re-resolution returning a name with its own truthy entry). -/
def wf_disjoint (env : Env) (cfg : Config) : Bool :=
  let binfo := env.get_branches_info (decide (1 ≤ cfg.verbosity))
  decide ((binfo.map Prod.fst).Nodup) &&
    (match buildMaps env binfo with
     | Except.error _ => false
     | Except.ok (roots, _, pm) => roots.all (fun r => pmCountAll pm r == 0))

/-! Concrete instances used by counterexamples and witnesses. -/

/-- Shorthand for an entry of the bulk branch map with zero counts. -/
def exBI (u h : String) : BranchInfo :=
  { hash := h, upstream := u, ahead := 0, behind := 0 }

/-- Minimal configuration: verbosity 0, no subject, colors on. -/
def cfgPlain : Config := { verbosity := 0, show_subject := false, nocolor := false }

/-- Instance A: branch `a` records upstream `x` (an empty entry) but live
resolution returns `b`, which has its own truthy entry; `b` records
upstream `y`, which is unresolvable (gone). -/
def exBinfoA : BranchesDict :=
  [("a", some (exBI "x" "1111")), ("x", none),
   ("b", some (exBI "y" "2222")), ("y", none)]

def exEnvA : Env :=
  { get_branches_info := fun _ => exBinfoA
    upstream := fun s => if s == "a" then some "b" else none
    hash_one := fun s => if s == "HEAD" then some "9999" else none
    current_branch := "c0"
    tags := []
    status_info := fun _ => (none, "")
    log_subject := fun _ => "" }

/-- Instance B: branch `br` lives under live-resolved root `stray`, an
empty entry whose hash is unresolvable and which matches no safe color
class. -/
def exBinfoB : BranchesDict :=
  [("br", some (exBI "up" "3333")), ("up", none), ("stray", none)]

def exEnvB : Env :=
  { get_branches_info := fun _ => exBinfoB
    upstream := fun s => if s == "br" then some "stray" else none
    hash_one := fun s => if s == "HEAD" then some "9999" else none
    current_branch := "c0"
    tags := []
    status_info := fun _ => (none, "")
    log_subject := fun _ => "" }

/-- Instance C: `feature` records upstream `origin/master`, which is a key
of the bulk map bound to an empty entry, while live resolution returns the
unrelated name `live-br`. -/
def exBinfoC : BranchesDict :=
  [("feature", some (exBI "origin/master" "aaaa")), ("origin/master", none)]

def exEnvC : Env :=
  { get_branches_info := fun _ => exBinfoC
    upstream := fun s => if s == "feature" then some "live-br" else none
    hash_one := fun s => if s == "HEAD" then some "9999" else none
    current_branch := "c0"
    tags := []
    status_info := fun _ => (none, "")
    log_subject := fun _ => "" }

/-- Instance D: a two-branch upstream cycle (`a` tracks `b`, `b` tracks
`a`), both with truthy entries. -/
def exBinfoD : BranchesDict :=
  [("a", some (exBI "b" "1111")), ("b", some (exBI "a" "2222"))]

def exEnvD : Env :=
  { get_branches_info := fun _ => exBinfoD
    upstream := fun _ => none
    hash_one := fun s => if s == "HEAD" then some "9999" else none
    current_branch := "c0"
    tags := []
    status_info := fun _ => (none, "")
    log_subject := fun _ => "" }

/-- An environment whose collaborators are never consulted in the
scenarios that use it. -/
def exEnvE : Env :=
  { get_branches_info := fun _ => []
    upstream := fun _ => none
    hash_one := fun _ => none
    current_branch := "c0"
    tags := []
    status_info := fun _ => (none, "")
    log_subject := fun _ => "" }

/-- Mapper for the review-column scenario: branch `b` is itself valid but
its upstream `up` is gone; verbosity 2, no review URL found. -/
def exMapperE : BranchMapper :=
  { verbosity := 2
    show_subject := false
    output := OutputManager.init false
    gone_branches := ["up"]
    branches_info := [("b", some (exBI "up" "abc1"))]
    parent_map := []
    current_branch := "c0"
    current_hash := "9999"
    tag_set := []
    status_info := fun _ => (none, "ST") }

/-- Mapper with the empty-string placeholder recorded both as a key and in
the gone set. -/
def exMapperG : BranchMapper :=
  { verbosity := 0
    show_subject := false
    output := OutputManager.init false
    gone_branches := [""]
    branches_info := [("", none)]
    parent_map := []
    current_branch := "c0"
    current_hash := "9999"
    tag_set := []
    status_info := fun _ => (none, "") }

/-- A branch at ahead 3 / behind 0 tracking upstream `o`. -/
def exBIF : BranchInfo := { hash := "h1", upstream := "o", ahead := 3, behind := 0 }

/-- Mapper with a branch at ahead 3 / behind 0 under a valid upstream
(verbosity 1). -/
def exMapperF : BranchMapper :=
  { verbosity := 1
    show_subject := false
    output := OutputManager.init false
    gone_branches := []
    branches_info := [("f", some exBIF)]
    parent_map := []
    current_branch := "c0"
    current_hash := "9999"
    tag_set := []
    status_info := fun _ => (none, "") }

/-- The row rendered for branch `b` of `exMapperE`. -/
def exLineE : OutputLine :=
  { columns := ["b", "abc1", "", "", "", "", "", "None"]
    separators := ["    ", " ", " ", " ", " ", " ", "    ", "    "]
    colors := ["\x1b[32m\x1b[22m", "\x1b[31m", "\x1b[37m", "\x1b[35m", "\x1b[37m",
               "\x1b[35m", "\x1b[37m", "ST"] }

/-- The row rendered for branch `f` of `exMapperF`. -/
def exLineF : OutputLine :=
  { columns := ["f", "[", "ahead 3", "", "", "]"]
    separators := ["    ", " ", " ", " ", " ", "    "]
    colors := ["\x1b[32m\x1b[22m", "\x1b[37m", "\x1b[35m", "\x1b[37m", "\x1b[35m", "\x1b[37m"] }

/-- Instance H: a healthy two-level chain — `child` tracks `par` (truthy
entry), `par` tracks the empty placeholder, which is gone. -/
def exBinfoH : BranchesDict :=
  [("child", some (exBI "par" "c1")), ("par", some (exBI "" "p1")), ("", none)]

def exEnvH : Env :=
  { get_branches_info := fun _ => exBinfoH
    upstream := fun _ => none
    hash_one := fun s => if s == "HEAD" then some "9999" else none
    current_branch := "c0"
    tags := []
    status_info := fun _ => (none, "")
    log_subject := fun _ => "" }

/-- Two-column line whose second column is empty (colored). -/
def exLine1 : OutputLine :=
  (OutputLine.mkEmpty.append "abc" DEFAULT_SEPARATOR Fore.RED).append ""
    DEFAULT_SEPARATOR Fore.GREEN

/-- Two-column line that forces a non-zero width for the second column. -/
def exLine2 : OutputLine :=
  (OutputLine.mkEmpty.append "a" DEFAULT_SEPARATOR Fore.RED).append "x"
    DEFAULT_SEPARATOR Fore.GREEN


/-- The colored manager after appending the two example lines. -/
def exOmC : OutputManager :=
  ⟨[⟨["abc", ""], ["    ", "    "], [Fore.RED, Fore.GREEN]⟩,
    ⟨["a", "x"], ["    ", "    "], [Fore.RED, Fore.GREEN]⟩],
   false, [3, 1], some 2⟩

/-- The no-color manager after appending the two example lines. -/
def exOmN : OutputManager :=
  ⟨[⟨["abc", ""], ["    ", "    "], ["", ""]⟩,
    ⟨["a", "x"], ["    ", "    "], ["", ""]⟩],
   true, [3, 1], some 2⟩

/-- Well-formedness for the exactly-once guarantee: duplicate-free bulk
keys, a resolvable `HEAD`, a successful build whose roots are all
known-but-external entries that render safely, and an acyclic tracking
graph (every truthy entry's computed-parent chain reaches an anchor). -/
def wfC1 (env : Env) (cfg : Config) : Bool :=
  let binfo := env.get_branches_info (decide (1 ≤ cfg.verbosity))
  decide ((binfo.map Prod.fst).Nodup) &&
  (env.hash_one "HEAD").isSome &&
  (match buildMaps env binfo with
   | Except.error _ => false
   | Except.ok (roots, gone, _) =>
       roots.all (fun r => (dictGet binfo r == some none) &&
         ((env.hash_one r).isSome || (r == "") || gone.contains r ||
          startsWithPy r "origin" || startsWithPy r "branch-heads" ||
          env.tags.contains r)) &&
       binfo.all (fun e => !e.2.isSome ||
         reaches_root env binfo (binfo.length + 1) e.1))

/-! Shared lemmas. -/

/-- Color classification of a node that is a gone or empty-name
placeholder (and not remote- or release-prefixed): always magenta, so the
hash is never compared against the current head in the color cascade. -/
theorem color_for_branch_invalid (m : BranchMapper) (branch : String) (bh : Option String)
    (h1 : startsWithPy branch "origin" = false)
    (h2 : startsWithPy branch "branch-heads" = false)
    (hinv : m.is_invalid_parent branch = true) :
    m.color_for_branch branch bh =
      Except.ok (Fore.MAGENTA ++ (if (match bh with
        | some hh => hh != "" && startsWithPy m.current_hash hh
        | none => false) then Style.BRIGHT else Style.NORMAL)) := by
  simp only [BranchMapper.color_for_branch, h1, h2, hinv, Bool.true_or,
    Bool.false_eq_true, if_false, if_true, ite_true, ite_false]

/-- Popping a present key splits the map at the first occurrence of that
key. -/
theorem popMap_eq_some (pm : List (String × List String)) (k : String)
    (cs : List String) (pm' : List (String × List String))
    (h : popMap pm k = some (cs, pm')) :
    ∃ pre post, pm = pre ++ (k, cs) :: post ∧ pm' = pre ++ post ∧
      ∀ e ∈ pre, e.1 ≠ k := by
  induction pm generalizing pm' with
  | nil => simp [popMap] at h
  | cons hd tl ih =>
      obtain ⟨k2, cs2⟩ := hd
      by_cases hk : k2 == k
      · simp only [popMap, hk, if_true, ite_true] at h
        obtain ⟨rfl, rfl⟩ := Prod.mk.injEq .. ▸ (Option.some.injEq .. ▸ h)
        exact ⟨[], tl, by simpa using (eq_of_beq hk).symm ▸ rfl, rfl, by simp⟩
      · simp only [popMap, hk, if_false, Bool.false_eq_true, ite_false] at h
        rcases hrec : popMap tl k with _ | pr
        · rw [hrec] at h
          cases h
        · rw [hrec] at h
          obtain ⟨cs3, rest3⟩ := pr
          obtain ⟨rfl, rfl⟩ := Prod.mk.injEq .. ▸ (Option.some.injEq .. ▸ h)
          obtain ⟨pre, post, htl, hrest, hpre⟩ := ih rest3 hrec
          refine ⟨(k2, cs2) :: pre, post, by simp [htl], by simp [hrest], ?_⟩
          intro e he
          rcases List.mem_cons.mp he with rfl | he2
          · simpa using fun hcon => hk (by simp [hcon])
          · exact hpre e he2

/-- Popping an absent key fails exactly when the key is not present. -/
theorem popMap_none_not_mem (pm : List (String × List String)) (k : String)
    (h : popMap pm k = none) : ¬ k ∈ keysOf pm := by
  induction pm with
  | nil => simp [keysOf]
  | cons hd tl ih =>
      obtain ⟨k2, cs2⟩ := hd
      by_cases hk : k2 == k
      · simp [popMap, hk] at h
      · simp only [popMap, hk, if_false, Bool.false_eq_true, ite_false] at h
        rcases hrec : popMap tl k with _ | pr
        · intro hmem
          rcases List.mem_cons.mp hmem with hkk | h2
          · simp only at hkk
            subst hkk
            simp at hk
          · exact ih hrec h2
        · rw [hrec] at h
          obtain ⟨cs3, rest3⟩ := pr
          cases h

/-- The popped remainder is a sublist of the original map. -/
theorem popD_sublist (pm : List (String × List String)) (k : String) :
    List.Sublist (popD pm k).2 pm := by
  unfold popD
  rcases hp : popMap pm k with _ | pr
  · simp
  · obtain ⟨cs, pm'⟩ := pr
    obtain ⟨pre, post, hpm, hpm', _⟩ := popMap_eq_some pm k cs pm' hp
    subst hpm hpm'
    simp only
    exact List.Sublist.append_left (List.sublist_cons_self _ _) pre

/-- Occurrence counting for the children lists distributes over append. -/
theorem pmCountAll_append (l1 l2 : List (String × List String)) (x : String) :
    pmCountAll (l1 ++ l2) x = pmCountAll l1 x + pmCountAll l2 x := by
  simp [pmCountAll]

/-- Counting after a successful pop: the popped list's occurrences leave
the map. -/
theorem popMap_count (pm : List (String × List String)) (k : String)
    (cs : List String) (pm' : List (String × List String))
    (h : popMap pm k = some (cs, pm')) (x : String) :
    pmCountAll pm x = cs.count x + pmCountAll pm' x := by
  obtain ⟨pre, post, hpm, hpm', _⟩ := popMap_eq_some pm k cs pm' h
  subst hpm hpm'
  simp [pmCountAll_append, pmCountAll]
  ring

/-- A successful pop with duplicate-free keys removes the key entirely. -/
theorem popMap_not_mem_keys (pm : List (String × List String)) (k : String)
    (cs : List String) (pm' : List (String × List String))
    (hnd : (keysOf pm).Nodup) (h : popMap pm k = some (cs, pm')) :
    ¬ k ∈ keysOf pm' := by
  obtain ⟨pre, post, hpm, hpm', hpre⟩ := popMap_eq_some pm k cs pm' h
  subst hpm hpm'
  simp only [keysOf, List.map_append, List.map_cons, List.nodup_append] at hnd
  intro hmem
  simp only [keysOf, List.map_append, List.mem_append] at hmem
  rcases hmem with hmem | hmem
  · obtain ⟨e, he, hek⟩ := List.mem_map.mp hmem
    exact hpre e he hek
  · rcases hnd with ⟨_, hnd2, _⟩
    exact (List.nodup_cons.mp hnd2).1 hmem

/-- With duplicate-free keys, popping a present entry returns that entry's
list. -/
theorem popMap_of_mem (pm : List (String × List String)) (k : String)
    (cs : List String) (hnd : (keysOf pm).Nodup) (hmem : (k, cs) ∈ pm) :
    ∃ pm', popMap pm k = some (cs, pm') := by
  rcases hp : popMap pm k with _ | pr
  · exact absurd (List.mem_map_of_mem Prod.fst hmem) (popMap_none_not_mem pm k hp)
  · obtain ⟨cs2, pm'⟩ := pr
    obtain ⟨pre, post, hpm, _, hpre⟩ := popMap_eq_some pm k cs2 pm' hp
    subst hpm
    rcases List.mem_append.mp hmem with hin | hin
    · exact absurd rfl (hpre _ hin)
    · rcases List.mem_cons.mp hin with heq | hin2
      · cases heq
        exact ⟨pm', rfl⟩
      · exfalso
        simp only [keysOf, List.map_append, List.map_cons, List.nodup_append,
          List.nodup_cons] at hnd
        exact hnd.2.1.1 (List.mem_map_of_mem Prod.fst hin2)

/-- Entries with other keys survive a pop. -/
theorem popMap_mem_of_ne (pm : List (String × List String)) (k : String)
    (cs : List String) (pm' : List (String × List String))
    (h : popMap pm k = some (cs, pm'))
    (k2 : String) (cs2 : List String) (hmem : (k2, cs2) ∈ pm) (hne : k2 ≠ k) :
    (k2, cs2) ∈ pm' := by
  obtain ⟨pre, post, hpm, hpm', _⟩ := popMap_eq_some pm k cs pm' h
  subst hpm hpm'
  rcases List.mem_append.mp hmem with hin | hin
  · exact List.mem_append.mpr (Or.inl hin)
  · rcases List.mem_cons.mp hin with heq | hin2
    · cases heq
      exact absurd rfl hne
    · exact List.mem_append.mpr (Or.inr hin2)

/-- With duplicate-free keys an entry is determined by its key. -/
theorem entry_unique (pm : List (String × List String)) (k : String)
    (cs cs2 : List String) (hnd : (keysOf pm).Nodup)
    (h1 : (k, cs) ∈ pm) (h2 : (k, cs2) ∈ pm) : cs = cs2 := by
  induction pm with
  | nil => cases h1
  | cons hd tl ih =>
      simp only [keysOf, List.map_cons, List.nodup_cons] at hnd
      rcases List.mem_cons.mp h1 with rfl | h1t
      · rcases List.mem_cons.mp h2 with heq | h2t
        · exact (Prod.mk.injEq .. ▸ heq).2.symm
        · exact absurd (List.mem_map_of_mem Prod.fst h2t) (by simpa [keysOf] using hnd.1)
      · rcases List.mem_cons.mp h2 with rfl | h2t
        · exact absurd (List.mem_map_of_mem Prod.fst h1t) (by simpa [keysOf] using hnd.1)
        · exact ih (by simpa [keysOf] using hnd.2) h1t h2t

/-- An entry of the full map that still has its key in a sublist is itself
in the sublist (keys duplicate-free). -/
theorem mem_of_keys_mem_sublist (mid pm : List (String × List String))
    (hsub : List.Sublist mid pm) (hnd : (keysOf pm).Nodup)
    (k : String) (cs : List String) (hmem : (k, cs) ∈ pm)
    (hk : k ∈ keysOf mid) : (k, cs) ∈ mid := by
  obtain ⟨e, he, hek⟩ := List.mem_map.mp hk
  obtain ⟨k2, cs2⟩ := e
  simp only at hek
  subst hek
  have hpm : (k2, cs2) ∈ pm := hsub.subset he
  have hcs : cs2 = cs := entry_unique pm k2 cs2 cs hnd hpm hmem
  subst hcs
  exact he

/-- Keys of a sublist form a sublist of the keys. -/
theorem keysOf_sublist (mid pm : List (String × List String))
    (hsub : List.Sublist mid pm) : List.Sublist (keysOf mid) (keysOf pm) :=
  List.Sublist.map Prod.fst hsub

/-- The singleton count as an if. -/
theorem count_singleton_ite (v x : String) :
    List.count x [v] = (if v == x then 1 else 0) := by
  by_cases h : v == x
  · have : x = v := (eq_of_beq h).symm
    subst this
    simp [List.count_cons]
  · have hne : ¬ x = v := fun hc => h (by simp [hc])
    simp [List.count_cons, List.count_nil, h, hne]

/-- `pmAppend` adds one occurrence of the appended value. -/
theorem pmAppend_count (pm : List (String × List String)) (k v x : String) :
    pmCountAll (pmAppend pm k v) x =
      pmCountAll pm x + (if v == x then 1 else 0) := by
  induction pm with
  | nil =>
      simp only [pmAppend, pmCountAll, List.map_cons, List.map_nil,
        List.sum_cons, List.sum_nil]
      rw [count_singleton_ite]
      omega
  | cons hd tl ih =>
      obtain ⟨k2, cs2⟩ := hd
      by_cases hk : k2 == k
      · simp only [pmAppend, hk, if_true, ite_true]
        simp only [pmCountAll, List.map_cons, List.sum_cons, List.count_append]
        rw [count_singleton_ite]
        omega
      · simp only [pmAppend, hk, if_false, Bool.false_eq_true, ite_false]
        simp only [pmCountAll, List.map_cons, List.sum_cons] at ih ⊢
        omega

/-- `pmAppend` preserves existing entries or extends the matching one. -/
theorem pmAppend_mem (pm : List (String × List String)) (k v : String)
    (k2 : String) (cs : List String) (hmem : (k2, cs) ∈ pm) :
    (k2, cs) ∈ pmAppend pm k v ∨ ((k2 == k) = true ∧ (k2, cs ++ [v]) ∈ pmAppend pm k v) := by
  induction pm with
  | nil => cases hmem
  | cons hd tl ih =>
      obtain ⟨k3, cs3⟩ := hd
      by_cases hk : k3 == k
      · simp only [pmAppend, hk, if_true, ite_true]
        rcases List.mem_cons.mp hmem with heq | htl
        · obtain ⟨rfl, rfl⟩ := Prod.mk.injEq .. ▸ heq
          exact Or.inr ⟨hk, List.mem_cons_self _ _⟩
        · exact Or.inl (List.mem_cons_of_mem _ htl)
      · simp only [pmAppend, hk, if_false, Bool.false_eq_true, ite_false]
        rcases List.mem_cons.mp hmem with heq | htl
        · obtain ⟨rfl, rfl⟩ := Prod.mk.injEq .. ▸ heq
          exact Or.inl (List.mem_cons_self _ _)
        · rcases ih htl with h | ⟨hh, hm⟩
          · exact Or.inl (List.mem_cons_of_mem _ h)
          · exact Or.inr ⟨hh, List.mem_cons_of_mem _ hm⟩

/-- The appended value lands in the map under the given key. -/
theorem pmAppend_mem_value (pm : List (String × List String)) (k v : String) :
    ∃ cs, (k, cs) ∈ pmAppend pm k v ∧ v ∈ cs := by
  induction pm with
  | nil => exact ⟨[v], List.mem_cons_self _ _, List.mem_cons_self _ _⟩
  | cons hd tl ih =>
      obtain ⟨k3, cs3⟩ := hd
      by_cases hk : k3 == k
      · exact ⟨cs3 ++ [v], by
          simp only [pmAppend, hk, if_true, ite_true]
          exact (eq_of_beq hk) ▸ List.mem_cons_self _ _,
          by simp⟩
      · obtain ⟨cs, hm, hv⟩ := ih
        exact ⟨cs, by
          simp only [pmAppend, hk, if_false, Bool.false_eq_true, ite_false]
          exact List.mem_cons_of_mem _ hm, hv⟩

/-- `setAdd` preserves freedom from duplicates. -/
theorem setAdd_nodup (l : List String) (s : String) (h : l.Nodup) :
    (setAdd l s).Nodup := by
  by_cases hc : s ∈ l
  · simpa [setAdd, List.contains, hc] using h
  · simp only [setAdd, List.contains, List.elem_eq_mem, hc, decide_False,
      Bool.false_eq_true, if_false, ite_false]
    refine List.Nodup.append h (List.nodup_singleton s) ?_
    intro a ha hb
    rcases List.mem_singleton.mp hb with rfl
    exact absurd ha hc

/-- Membership after `setAdd`. -/
theorem setAdd_mem (l : List String) (s x : String) :
    x ∈ setAdd l s ↔ x ∈ l ∨ x = s := by
  by_cases hc : s ∈ l
  · simp only [setAdd, List.contains, List.elem_eq_mem, hc, decide_True,
      if_true, ite_true]
    constructor
    · exact fun h => Or.inl h
    · rintro (h | rfl)
      · exact h
      · exact hc
  · simp [setAdd, List.contains, hc]

/-- Insertion keeps the list a permutation of consing. -/
theorem insertSorted_perm (s : String) (l : List String) :
    List.Perm (insertSorted s l) (s :: l) := by
  induction l with
  | nil => simp [insertSorted]
  | cons t ts ih =>
      unfold insertSorted
      by_cases h : strLe s t
      · simp [h]
      · simp only [h, Bool.false_eq_true, ite_false]
        exact List.Perm.trans (List.Perm.cons t ih) (List.Perm.swap s t ts)

/-- `sorted` permutes its input. -/
theorem sortStrings_perm (l : List String) :
    List.Perm (sortStrings l) l := by
  induction l with
  | nil => simp [sortStrings]
  | cons s ss ih =>
      unfold sortStrings
      exact List.Perm.trans (insertSorted_perm s (sortStrings ss)) (List.Perm.cons s ih)

/-- `sorted` preserves counts. -/
theorem sortStrings_count (l : List String) (x : String) :
    (sortStrings l).count x = l.count x :=
  (sortStrings_perm l).count_eq x

/-- `sorted` preserves membership. -/
theorem sortStrings_mem (l : List String) (x : String) :
    x ∈ sortStrings l ↔ x ∈ l :=
  (sortStrings_perm l).mem_iff

/-- `sorted` preserves freedom from duplicates. -/
theorem sortStrings_nodup (l : List String) (h : l.Nodup) :
    (sortStrings l).Nodup :=
  (sortStrings_perm l).nodup_iff.mpr h

/-- Membership of a value inside some entry persists across `pmAppend`. -/
theorem pmAppend_persist (pm : List (String × List String)) (k v : String)
    (k2 : String) (cs : List String) (b : String)
    (hmem : (k2, cs) ∈ pm) (hb : b ∈ cs) :
    ∃ cs2, (k2, cs2) ∈ pmAppend pm k v ∧ b ∈ cs2 := by
  rcases pmAppend_mem pm k v k2 cs hmem with h | ⟨_, h⟩
  · exact ⟨cs, h, hb⟩
  · exact ⟨cs ++ [v], h, List.mem_append.mpr (Or.inl hb)⟩

/-- Value membership persists to the end of the build fold. -/
theorem buildFold_persist (env : Env) (binfo : BranchesDict)
    (l : List (String × Option BranchInfo))
    (roots gone : List String) (pm : List (String × List String))
    (roots' gone' : List String) (pm' : List (String × List String))
    (hf : buildFold env binfo l (roots, gone, pm) = Except.ok (roots', gone', pm'))
    (k : String) (cs : List String) (b : String)
    (hmem : (k, cs) ∈ pm) (hb : b ∈ cs) :
    ∃ cs2, (k, cs2) ∈ pm' ∧ b ∈ cs2 := by
  induction l generalizing roots gone pm cs with
  | nil =>
      simp only [buildFold] at hf
      obtain ⟨rfl, rfl, rfl⟩ := Prod.mk.injEq .. ▸ (Except.ok.injEq .. ▸ hf)
      exact ⟨cs, hmem, hb⟩
  | cons e rest ih =>
      obtain ⟨branch, info⟩ := e
      rcases info with _ | bi
      · exact ih roots gone pm (by simpa [buildFold] using hf) cs hmem hb
      · simp only [buildFold] at hf
        rcases hr : resolveParent env binfo branch bi with er | pr
        · rw [hr] at hf
          cases hf
        · rw [hr] at hf
          obtain ⟨parent, isRoot, markGone⟩ := pr
          obtain ⟨cs2, hmem2, hb2⟩ := pmAppend_persist pm parent branch k cs b hmem hb
          exact ih _ _ _ hf cs2 hmem2 hb2

/-- Root membership persists to the end of the build fold. -/
theorem buildFold_roots_persist (env : Env) (binfo : BranchesDict)
    (l : List (String × Option BranchInfo))
    (roots gone : List String) (pm : List (String × List String))
    (roots' gone' : List String) (pm' : List (String × List String))
    (hf : buildFold env binfo l (roots, gone, pm) = Except.ok (roots', gone', pm'))
    (r : String) (hmem : r ∈ roots) : r ∈ roots' := by
  induction l generalizing roots gone pm with
  | nil =>
      simp only [buildFold] at hf
      obtain ⟨rfl, rfl, rfl⟩ := Prod.mk.injEq .. ▸ (Except.ok.injEq .. ▸ hf)
      exact hmem
  | cons e rest ih =>
      obtain ⟨branch, info⟩ := e
      rcases info with _ | bi
      · exact ih roots gone pm (by simpa [buildFold] using hf) hmem
      · simp only [buildFold] at hf
        rcases hr : resolveParent env binfo branch bi with er | pr
        · rw [hr] at hf
          cases hf
        · rw [hr] at hf
          obtain ⟨parent, isRoot, markGone⟩ := pr
          rcases isRoot with _ | _
          · exact ih _ _ _ hf hmem
          · exact ih _ _ _ hf ((setAdd_mem _ _ _).mpr (Or.inl hmem))

/-- Every truthy entry of the processed tail resolves without error and its
branch is recorded under the resolved parent in the final map; when the
resolution registers a root, that root is in the final root set. -/
theorem buildFold_mem (env : Env) (binfo : BranchesDict)
    (l : List (String × Option BranchInfo))
    (roots gone : List String) (pm : List (String × List String))
    (roots' gone' : List String) (pm' : List (String × List String))
    (hf : buildFold env binfo l (roots, gone, pm) = Except.ok (roots', gone', pm'))
    (branch : String) (bi : BranchInfo) (hmem : (branch, some bi) ∈ l) :
    ∃ parent isRoot markGone,
      resolveParent env binfo branch bi = Except.ok (parent, isRoot, markGone) ∧
      (∃ cs, (parent, cs) ∈ pm' ∧ branch ∈ cs) ∧
      (isRoot = true → parent ∈ roots') := by
  induction l generalizing roots gone pm with
  | nil => cases hmem
  | cons e rest ih =>
      obtain ⟨branch2, info⟩ := e
      rcases List.mem_cons.mp hmem with heq | htl
      · obtain ⟨rfl, rfl⟩ := Prod.mk.injEq .. ▸ heq
        simp only [buildFold] at hf
        rcases hr : resolveParent env binfo branch bi with er | pr
        · rw [hr] at hf
          cases hf
        · rw [hr] at hf
          obtain ⟨parent, isRoot, markGone⟩ := pr
          obtain ⟨cs0, hm0, hb0⟩ := pmAppend_mem_value pm parent branch
          obtain ⟨cs2, hm2, hb2⟩ := buildFold_persist env binfo rest _ _ _ _ _ _ hf
            parent cs0 branch hm0 hb0
          refine ⟨parent, isRoot, markGone, rfl, ⟨cs2, hm2, hb2⟩, ?_⟩
          intro hRoot
          subst hRoot
          exact buildFold_roots_persist env binfo rest _ _ _ _ _ _ hf parent
            ((setAdd_mem _ _ _).mpr (Or.inr rfl))
      · rcases info with _ | bi2
        · exact ih roots gone pm (by simpa [buildFold] using hf) htl
        · simp only [buildFold] at hf
          rcases hr : resolveParent env binfo branch2 bi2 with er | pr
          · rw [hr] at hf
            cases hf
          · rw [hr] at hf
            obtain ⟨parent2, isRoot2, markGone2⟩ := pr
            exact ih _ _ _ hf htl

/-- The build fold appends each truthy entry's branch name exactly once. -/
theorem buildFold_count (env : Env) (binfo : BranchesDict)
    (l : List (String × Option BranchInfo))
    (roots gone : List String) (pm : List (String × List String))
    (roots' gone' : List String) (pm' : List (String × List String))
    (hf : buildFold env binfo l (roots, gone, pm) = Except.ok (roots', gone', pm'))
    (x : String) :
    pmCountAll pm' x = pmCountAll pm x + countFull l x := by
  induction l generalizing roots gone pm with
  | nil =>
      simp only [buildFold] at hf
      obtain ⟨rfl, rfl, rfl⟩ := Prod.mk.injEq .. ▸ (Except.ok.injEq .. ▸ hf)
      simp [countFull]
  | cons e rest ih =>
      obtain ⟨branch, info⟩ := e
      rcases info with _ | bi
      · have := ih roots gone pm (by simpa [buildFold] using hf)
        simp only [countFull, List.filter_cons] at this ⊢
        simpa using this
      · simp only [buildFold] at hf
        rcases hr : resolveParent env binfo branch bi with er | pr
        · rw [hr] at hf
          cases hf
        · rw [hr] at hf
          obtain ⟨parent, isRoot, markGone⟩ := pr
          have hrec := ih _ _ _ hf
          rw [hrec, pmAppend_count]
          simp only [countFull, List.filter_cons]
          by_cases hx : branch == x
          · simp only [hx, Option.isSome_some, Bool.and_true, if_true, ite_true,
              List.length_cons]
            omega
          · simp only [hx, Bool.false_and, Bool.false_eq_true, if_false, ite_false]
            omega

/-- The build fold keeps the root accumulator duplicate-free. -/
theorem buildFold_roots_nodup (env : Env) (binfo : BranchesDict)
    (l : List (String × Option BranchInfo))
    (roots gone : List String) (pm : List (String × List String))
    (roots' gone' : List String) (pm' : List (String × List String))
    (hf : buildFold env binfo l (roots, gone, pm) = Except.ok (roots', gone', pm'))
    (hnd : roots.Nodup) : roots'.Nodup := by
  induction l generalizing roots gone pm with
  | nil =>
      simp only [buildFold] at hf
      obtain ⟨rfl, rfl, rfl⟩ := Prod.mk.injEq .. ▸ (Except.ok.injEq .. ▸ hf)
      exact hnd
  | cons e rest ih =>
      obtain ⟨branch, info⟩ := e
      rcases info with _ | bi
      · exact ih roots gone pm (by simpa [buildFold] using hf) hnd
      · simp only [buildFold] at hf
        rcases hr : resolveParent env binfo branch bi with er | pr
        · rw [hr] at hf
          cases hf
        · rw [hr] at hf
          obtain ⟨parent, isRoot, markGone⟩ := pr
          rcases isRoot with _ | _
          · exact ih _ _ _ hf hnd
          · exact ih _ _ _ hf (setAdd_nodup _ _ hnd)

/-- With duplicate-free keys, at most one truthy entry lists any name, and
exactly one lists a name bound to a truthy entry. -/
theorem countFull_le_one (l : List (String × Option BranchInfo)) (x : String)
    (hnd : (l.map Prod.fst).Nodup) : countFull l x ≤ 1 := by
  induction l with
  | nil => simp [countFull]
  | cons e rest ih =>
      obtain ⟨k, info⟩ := e
      simp only [List.map_cons, List.nodup_cons] at hnd
      simp only [countFull, List.filter_cons]
      by_cases hk : (k == x) && info.isSome
      · simp only [hk, if_true, ite_true, List.length_cons]
        have hkx : k = x := eq_of_beq (Bool.and_elim_left hk)
        subst hkx
        have : countFull rest k = 0 := by
          simp only [countFull, List.length_eq_zero, List.filter_eq_nil]
          intro e he
          intro hcon
          have : e.1 = k := eq_of_beq (Bool.and_elim_left hcon)
          exact hnd.1 (this ▸ List.mem_map_of_mem Prod.fst he)
        simp only [countFull] at this
        omega
      · simp only [hk, Bool.false_eq_true, if_false, ite_false]
        exact Nat.le_trans (Nat.le_refl _) (ih hnd.2)

/-- A truthy entry contributes to `countFull`. -/
theorem countFull_pos (l : List (String × Option BranchInfo)) (x : String)
    (bi : BranchInfo) (hmem : (x, some bi) ∈ l) : 1 ≤ countFull l x := by
  induction l with
  | nil => cases hmem
  | cons e rest ih =>
      rcases List.mem_cons.mp hmem with heq | htl
      · subst heq
        simp [countFull, List.filter_cons]
      · simp only [countFull, List.filter_cons]
        by_cases hk : (e.1 == x) && e.2.isSome
        · simp [hk]
        · simp only [hk, Bool.false_eq_true, if_false, ite_false]
          exact ih htl

/-- Names visited in a concatenation. -/
theorem countNames_append (vs1 vs2 : List (String × Nat)) (x : String) :
    countNames (vs1 ++ vs2) x = countNames vs1 x + countNames vs2 x := by
  simp [countNames, List.count_append]

/-- Names visited at a single visit. -/
theorem countNames_single (b : String) (d : Nat) (x : String) :
    countNames [(b, d)] x = (if b == x then 1 else 0) := by
  simp only [countNames, List.map_cons, List.map_nil]
  exact count_singleton_ite b x

/-- Prepending one visit to the tally. -/
theorem countNames_cons (b : String) (d : Nat) (vs : List (String × Nat)) (x : String) :
    countNames ((b, d) :: vs) x = (if b == x then 1 else 0) + countNames vs x := by
  simp only [countNames, List.map_cons, List.count_cons]
  by_cases h : b = x
  · subst h
    simp
    omega
  · simp only [beq_iff_eq, h, Ne.symm h, if_false, ite_false]
    omega

/-- A successful pop removes exactly one entry. -/
theorem popMap_length (pm : List (String × List String)) (k : String)
    (cs : List String) (pm' : List (String × List String))
    (h : popMap pm k = some (cs, pm')) : pm.length = pm'.length + 1 := by
  obtain ⟨pre, post, hpm, hpm', _⟩ := popMap_eq_some pm k cs pm' h
  subst hpm hpm'
  simp
  omega

/-- The visit fold only removes parent-map entries. -/
theorem foldVisits_sublist
    (f : List (String × List String) → String →
      List (String × Nat) × List (String × List String))
    (hf : ∀ pm c, List.Sublist (f pm c).2 pm) :
    ∀ cs pm, List.Sublist (foldVisits f pm cs).2 pm := by
  intro cs
  induction cs with
  | nil => intro pm; simp [foldVisits]
  | cons c cs ih =>
      intro pm
      simp only [foldVisits]
      exact List.Sublist.trans (ih (f pm c).2) (hf pm c)

/-- A single visit only removes parent-map entries. -/
theorem visit_branch_sublist (fuel : Nat) :
    ∀ pm b d, List.Sublist (visit_branch fuel pm b d).2 pm := by
  induction fuel with
  | zero => intro pm b d; simp [visit_branch]
  | succ fuel2 ih =>
      intro pm b d
      simp only [visit_branch]
      exact List.Sublist.trans
        (foldVisits_sublist _ (fun pm2 c => ih pm2 c (d + 1)) _ _)
        (popD_sublist pm b)

/-- Count bookkeeping for the visit fold: visits plus what remains in the
map equal the children list plus what was in the map. -/
theorem foldVisits_count
    (f : List (String × List String) → String →
      List (String × Nat) × List (String × List String))
    (hf_sub : ∀ pm c, List.Sublist (f pm c).2 pm)
    (N : Nat)
    (hf_cnt : ∀ pm c x, pm.length ≤ N →
      countNames (f pm c).1 x + pmCountAll (f pm c).2 x =
        (if c == x then 1 else 0) + pmCountAll pm x) :
    ∀ cs pm x, pm.length ≤ N →
      countNames (foldVisits f pm cs).1 x + pmCountAll (foldVisits f pm cs).2 x =
        cs.count x + pmCountAll pm x := by
  intro cs
  induction cs with
  | nil => intro pm x hlen; simp [foldVisits, countNames]
  | cons c cs ih =>
      intro pm x hlen
      simp only [foldVisits, countNames_append]
      have h1 := hf_cnt pm c x hlen
      have hlen2 : (f pm c).2.length ≤ N :=
        Nat.le_trans ((hf_sub pm c).length_le) hlen
      have h2 := ih (f pm c).2 x hlen2
      rw [List.count_cons]
      by_cases hcx : c == x
      · simp only [hcx, if_true, ite_true] at h1 ⊢
        omega
      · simp only [hcx, Bool.false_eq_true, if_false, ite_false] at h1 ⊢
        omega

/-- Count bookkeeping for one visit (with sufficient fuel). -/
theorem visit_branch_count (fuel : Nat) :
    ∀ pm b d x, pm.length < fuel →
      countNames (visit_branch fuel pm b d).1 x +
          pmCountAll (visit_branch fuel pm b d).2 x =
        (if b == x then 1 else 0) + pmCountAll pm x := by
  induction fuel with
  | zero => intro pm b d x h; omega
  | succ fuel2 ih =>
      intro pm b d x hlen
      simp only [visit_branch]
      rcases hp : popMap pm b with _ | pr
      · simp only [popD, hp, sortStrings, foldVisits]
        rw [countNames_cons]
        simp [countNames]
      · obtain ⟨cs0, pr2⟩ := pr
        simp only [popD, hp]
        have hlen1 : pm.length = pr2.length + 1 := popMap_length pm b cs0 pr2 hp
        have hcnt := foldVisits_count
          (fun pm2 c => visit_branch fuel2 pm2 c (d + 1))
          (fun pm2 c => visit_branch_sublist fuel2 pm2 c (d + 1))
          pr2.length
          (fun pm2 c x2 hlen2 => ih pm2 c (d + 1) x2 (by omega))
          (sortStrings cs0) pr2 x (Nat.le_refl _)
        rw [sortStrings_count] at hcnt
        have hpop := popMap_count pm b cs0 pr2 hp x
        rw [countNames_cons]
        omega

/-- With fuel, the visited branch heads its own visit list. -/
theorem visit_branch_self_mem (fuel : Nat) (pm : List (String × List String))
    (b : String) (d : Nat) (h : 1 ≤ fuel) :
    b ∈ (visit_branch fuel pm b d).1.map Prod.fst := by
  rcases fuel with _ | fuel2
  · omega
  · simp [visit_branch]

/-- Every child of the iterated list is visited by the fold. -/
theorem foldVisits_all_visited
    (f : List (String × List String) → String →
      List (String × Nat) × List (String × List String))
    (hf_head : ∀ pm c, c ∈ (f pm c).1.map Prod.fst) :
    ∀ cs pm c, c ∈ cs → c ∈ (foldVisits f pm cs).1.map Prod.fst := by
  intro cs
  induction cs with
  | nil => intro pm c h; cases h
  | cons c2 cs ih =>
      intro pm c h
      simp only [foldVisits, List.map_append, List.mem_append]
      rcases List.mem_cons.mp h with rfl | htl
      · exact Or.inl (hf_head pm c)
      · exact Or.inr (ih (f pm c2).2 c htl)

/-- A name visited by the fold loses its parent-map entry for good. -/
theorem foldVisits_visited_not_key
    (f : List (String × List String) → String →
      List (String × Nat) × List (String × List String))
    (hf_sub : ∀ pm c, List.Sublist (f pm c).2 pm)
    (hf_nk : ∀ pm c x, (keysOf pm).Nodup →
      x ∈ (f pm c).1.map Prod.fst → ¬ x ∈ keysOf (f pm c).2) :
    ∀ cs pm x, (keysOf pm).Nodup →
      x ∈ (foldVisits f pm cs).1.map Prod.fst →
      ¬ x ∈ keysOf (foldVisits f pm cs).2 := by
  intro cs
  induction cs with
  | nil => intro pm x hnd h; cases h
  | cons c cs ih =>
      intro pm x hnd h
      simp only [foldVisits, List.map_append, List.mem_append] at h
      have hnd2 : (keysOf (f pm c).2).Nodup :=
        List.Nodup.sublist (keysOf_sublist _ _ (hf_sub pm c)) hnd
      rcases h with h | h
      · intro hmem
        exact hf_nk pm c x hnd h
          ((keysOf_sublist _ _ (foldVisits_sublist f hf_sub cs (f pm c).2)).subset hmem)
      · exact ih (f pm c).2 x hnd2 h

/-- A visited name loses its parent-map entry for good. -/
theorem visit_branch_visited_not_key (fuel : Nat) :
    ∀ pm b d x, (keysOf pm).Nodup →
      x ∈ (visit_branch fuel pm b d).1.map Prod.fst →
      ¬ x ∈ keysOf (visit_branch fuel pm b d).2 := by
  induction fuel with
  | zero => intro pm b d x hnd h; simp [visit_branch] at h
  | succ fuel2 ih =>
      intro pm b d x hnd h
      simp only [visit_branch, List.map_cons] at h ⊢
      rcases List.mem_cons.mp h with rfl | h2
      · rcases hp : popMap pm x with _ | pr
        · simp only [popD, hp]
          intro hmem
          exact popMap_none_not_mem pm x hp
            ((keysOf_sublist _ _ (foldVisits_sublist _
              (fun pm2 c => visit_branch_sublist fuel2 pm2 c (d + 1)) _ _)).subset hmem)
        · obtain ⟨cs0, pr2⟩ := pr
          simp only [popD, hp]
          intro hmem
          exact popMap_not_mem_keys pm x cs0 pr2 hnd hp
            ((keysOf_sublist _ _ (foldVisits_sublist _
              (fun pm2 c => visit_branch_sublist fuel2 pm2 c (d + 1)) _ _)).subset hmem)
      · have hnd2 : (keysOf (popD pm b).2).Nodup :=
          List.Nodup.sublist (keysOf_sublist _ _ (popD_sublist pm b)) hnd
        exact foldVisits_visited_not_key _
          (fun pm2 c => visit_branch_sublist fuel2 pm2 c (d + 1))
          (fun pm2 c y => ih pm2 c (d + 1) y) _ _ x hnd2 h2

/-- If an entry of the map disappears during the fold, all its children
get visited. -/
theorem foldVisits_consumed
    (f : List (String × List String) → String →
      List (String × Nat) × List (String × List String))
    (hf_sub : ∀ pm c, List.Sublist (f pm c).2 pm)
    (N : Nat)
    (hf_cons : ∀ pm c, pm.length ≤ N → (keysOf pm).Nodup →
      ∀ k cs2, (k, cs2) ∈ pm → ¬ k ∈ keysOf (f pm c).2 →
        ∀ y ∈ cs2, y ∈ (f pm c).1.map Prod.fst) :
    ∀ cs pm, pm.length ≤ N → (keysOf pm).Nodup →
      ∀ k cs2, (k, cs2) ∈ pm → ¬ k ∈ keysOf (foldVisits f pm cs).2 →
        ∀ y ∈ cs2, y ∈ (foldVisits f pm cs).1.map Prod.fst := by
  intro cs
  induction cs with
  | nil =>
      intro pm hlen hnd k cs2 hmem hnk y hy
      exact absurd (List.mem_map_of_mem Prod.fst hmem) hnk
  | cons c cs ih =>
      intro pm hlen hnd k cs2 hmem hnk y hy
      simp only [foldVisits, List.map_append, List.mem_append] at hnk ⊢
      by_cases hk : k ∈ keysOf (f pm c).2
      · have hmem2 : (k, cs2) ∈ (f pm c).2 :=
          mem_of_keys_mem_sublist _ _ (hf_sub pm c) hnd k cs2 hmem hk
        have hnd2 : (keysOf (f pm c).2).Nodup :=
          List.Nodup.sublist (keysOf_sublist _ _ (hf_sub pm c)) hnd
        have hlen2 : (f pm c).2.length ≤ N :=
          Nat.le_trans ((hf_sub pm c).length_le) hlen
        exact Or.inr (ih (f pm c).2 hlen2 hnd2 k cs2 hmem2 hnk y hy)
      · exact Or.inl (hf_cons pm c hlen hnd k cs2 hmem hk y hy)

/-- If an entry of the map disappears during a visit (with sufficient
fuel and duplicate-free keys), all its children get visited. -/
theorem visit_branch_consumed (fuel : Nat) :
    ∀ pm b d, pm.length < fuel → (keysOf pm).Nodup →
      ∀ k cs2, (k, cs2) ∈ pm → ¬ k ∈ keysOf (visit_branch fuel pm b d).2 →
        ∀ y ∈ cs2, y ∈ (visit_branch fuel pm b d).1.map Prod.fst := by
  induction fuel with
  | zero => intro pm b d hlen; omega
  | succ fuel2 ih =>
      intro pm b d hlen hnd k cs2 hmem hnk y hy
      simp only [visit_branch, List.map_cons] at hnk ⊢
      rcases hp : popMap pm b with _ | pr
      · simp only [popD, hp, sortStrings, foldVisits] at hnk ⊢
        exact absurd (List.mem_map_of_mem Prod.fst hmem) hnk
      · obtain ⟨cs0, pr2⟩ := pr
        simp only [popD, hp] at hnk ⊢
        have hpm1 : pm.length = pr2.length + 1 := popMap_length pm b cs0 pr2 hp
        have hfuel2 : 1 ≤ fuel2 := by omega
        by_cases hkb : k = b
        · subst hkb
          obtain ⟨pre, post, hpm, hpr2, _⟩ := popMap_eq_some pm k cs0 pr2 hp
          have hmem0 : (k, cs0) ∈ pm := by
            rw [hpm]
            exact List.mem_append.mpr (Or.inr (List.mem_cons_self _ _))
          have hcs : cs2 = cs0 := entry_unique pm k cs2 cs0 hnd hmem hmem0
          subst hcs
          refine List.mem_cons_of_mem _ ?_
          exact foldVisits_all_visited _
            (fun pm2 c => visit_branch_self_mem fuel2 pm2 c (d + 1) hfuel2)
            (sortStrings cs2) pr2 y ((sortStrings_mem cs2 y).mpr hy)
        · have hmem2 : (k, cs2) ∈ pr2 := popMap_mem_of_ne pm b cs0 pr2 hp k cs2 hmem hkb
          have hsub2 : List.Sublist pr2 pm := by
            have := popD_sublist pm b
            simpa [popD, hp] using this
          have hnd2 : (keysOf pr2).Nodup :=
            List.Nodup.sublist (keysOf_sublist _ _ hsub2) hnd
          refine List.mem_cons_of_mem _ ?_
          exact foldVisits_consumed
            (fun pm2 c => visit_branch fuel2 pm2 c (d + 1))
            (fun pm2 c => visit_branch_sublist fuel2 pm2 c (d + 1))
            pr2.length
            (fun pm2 c hlen2 hnd3 k3 cs3 hm3 hnk3 =>
              ih pm2 c (d + 1) (by omega) hnd3 k3 cs3 hm3 hnk3)
            (sortStrings cs0) pr2 (Nat.le_refl _) hnd2 k cs2 hmem2 hnk y hy

/-- The whole roots loop only removes parent-map entries. -/
theorem visits_roots_sublist : ∀ (rs : List String) (pm : List (String × List String)),
    List.Sublist (visits_roots rs pm).2 pm := by
  intro rs
  induction rs with
  | nil => intro pm; simp [visits_roots]
  | cons r rs ih =>
      intro pm
      simp only [visits_roots]
      exact List.Sublist.trans (ih _) (visit_branch_sublist _ pm r 0)

/-- Count bookkeeping over the whole roots loop. -/
theorem visits_roots_count (rs : List String) (pm : List (String × List String))
    (x : String) :
    countNames (visits_roots rs pm).1 x + pmCountAll (visits_roots rs pm).2 x =
      rs.count x + pmCountAll pm x := by
  induction rs generalizing pm with
  | nil => simp [visits_roots, countNames]
  | cons r rs ih =>
      simp only [visits_roots, countNames_append, List.count_cons]
      have h1 := visit_branch_count (pm.length + 1) pm r 0 x (by omega)
      have h2 := ih (visit_branch (pm.length + 1) pm r 0).2
      by_cases hrx : r == x
      · simp only [hrx, if_true, ite_true] at h1 ⊢
        omega
      · simp only [hrx, Bool.false_eq_true, if_false, ite_false] at h1 ⊢
        omega

/-- A name visited during the roots loop loses its entry for good. -/
theorem visits_roots_visited_not_key (rs : List String)
    (pm : List (String × List String)) (x : String)
    (hnd : (keysOf pm).Nodup)
    (h : x ∈ (visits_roots rs pm).1.map Prod.fst) :
    ¬ x ∈ keysOf (visits_roots rs pm).2 := by
  induction rs generalizing pm with
  | nil => cases h
  | cons r rs ih =>
      simp only [visits_roots, List.map_append, List.mem_append] at h ⊢
      have hnd2 : (keysOf (visit_branch (pm.length + 1) pm r 0).2).Nodup :=
        List.Nodup.sublist (keysOf_sublist _ _ (visit_branch_sublist _ pm r 0)) hnd
      rcases h with h | h
      · intro hmem
        exact visit_branch_visited_not_key (pm.length + 1) pm r 0 x hnd h
          ((keysOf_sublist _ _ (visits_roots_sublist rs _)).subset hmem)
      · exact ih _ hnd2 h

/-- If an entry of the initial map is gone after the roots loop, all its
children were visited. -/
theorem visits_roots_consumed (rs : List String)
    (pm : List (String × List String)) (hnd : (keysOf pm).Nodup)
    (k : String) (cs : List String) (hmem : (k, cs) ∈ pm)
    (hnk : ¬ k ∈ keysOf (visits_roots rs pm).2) :
    ∀ y ∈ cs, y ∈ (visits_roots rs pm).1.map Prod.fst := by
  induction rs generalizing pm cs with
  | nil =>
      intro y hy
      exact absurd (List.mem_map_of_mem Prod.fst hmem) hnk
  | cons r rs ih =>
      intro y hy
      simp only [visits_roots, List.map_append, List.mem_append] at hnk ⊢
      set mid := (visit_branch (pm.length + 1) pm r 0).2 with hmid
      have hsub : List.Sublist mid pm := visit_branch_sublist _ pm r 0
      have hnd2 : (keysOf mid).Nodup :=
        List.Nodup.sublist (keysOf_sublist _ _ hsub) hnd
      by_cases hk : k ∈ keysOf mid
      · have hmem2 : (k, cs) ∈ mid :=
          mem_of_keys_mem_sublist _ _ hsub hnd k cs hmem hk
        exact Or.inr (ih mid hnd2 cs hmem2 hnk y hy)
      · exact Or.inl (visit_branch_consumed (pm.length + 1) pm r 0 (by omega)
          hnd k cs hmem hk y hy)

/-- Every listed root is visited by the roots loop. -/
theorem visits_roots_root_visited (rs : List String)
    (pm : List (String × List String)) (r : String) (hmem : r ∈ rs) :
    r ∈ (visits_roots rs pm).1.map Prod.fst := by
  induction rs generalizing pm with
  | nil => cases hmem
  | cons r2 rs ih =>
      simp only [visits_roots, List.map_append, List.mem_append]
      rcases List.mem_cons.mp hmem with rfl | htl
      · exact Or.inl (visit_branch_self_mem _ pm r 0 (by omega))
      · exact Or.inr (ih _ htl)


/-- The color classifier only ever raises `TypeError`. -/
theorem color_for_branch_error (m : BranchMapper) (b : String) (bh : Option String)
    (e : PyErr) (h : m.color_for_branch b bh = Except.error e) :
    e = PyErr.typeError := by
  rcases bh with _ | hh
  · simp only [BranchMapper.color_for_branch] at h
    split_ifs at h <;> simp_all
  · simp only [BranchMapper.color_for_branch] at h
    split_ifs at h <;> simp_all

/-- Row rendering only ever raises `KeyError` or `TypeError`. -/
theorem renderLine_error (env : Env) (m : BranchMapper) (b : String) (d : Nat)
    (e : PyErr) (h : renderLine env m b d = Except.error e) :
    e = PyErr.keyError ∨ e = PyErr.typeError := by
  rcases hd : dictGet m.branches_info b with _ | binfo
  · simp only [renderLine, hd] at h
    cases h
    exact Or.inl rfl
  · rcases binfo with _ | bi
    · simp only [renderLine, hd] at h
      rcases hcv : m.color_for_branch b (env.hash_one b) with e2 | color
      · rw [hcv] at h
        cases h
        exact Or.inr (color_for_branch_error m b _ _ hcv)
      · rw [hcv] at h
        cases h
    · simp only [renderLine, hd] at h
      rcases hcv : m.color_for_branch b (some bi.hash) with e2 | color
      · rw [hcv] at h
        cases h
        exact Or.inr (color_for_branch_error m b _ _ hcv)
      · rw [hcv] at h
        cases h

/-- The output manager's append only ever raises its assertion. -/
theorem om_append_error (m : OutputManager) (line : OutputLine) (e : PyErr)
    (h : m.append line = Except.error e) : e = PyErr.assertionError := by
  simp only [OutputManager.append] at h
  split_ifs at h <;> simp_all

/-- Appending a line whose column count matches the manager's (or to a
fresh manager) succeeds, storing the line with colors wiped in no-color
mode. -/
theorem om_append_ok (m : OutputManager) (line : OutputLine)
    (h : m.num_columns = none ∨ m.num_columns = some line.columns.length) :
    ∃ m2, m.append line = Except.ok m2 ∧
      m2.lines = m.lines ++ [{ line with colors :=
        (if m.nocolor then List.replicate line.columns.length "" else line.colors) }] ∧
      m2.nocolor = m.nocolor ∧ m2.num_columns = some line.columns.length := by
  rcases h with h | h
  · simp only [OutputManager.append, h]
    simp only [beq_self_eq_true, if_true, ite_true]
    refine ⟨_, rfl, ?_, rfl, rfl⟩
    rcases hnc : m.nocolor <;> simp
  · by_cases h0 : line.columns.length = 0
    · simp only [OutputManager.append, h, h0]
      simp only [beq_self_eq_true, if_true, ite_true]
      refine ⟨_, rfl, ?_, rfl, rfl⟩
      rcases hnc : m.nocolor <;> simp [h0]
    · have hb : (line.columns.length == 0) = false := by simp [h0]
      simp only [OutputManager.append, h, hb]
      simp only [beq_self_eq_true, if_true, ite_true, Bool.false_eq_true, if_false, ite_false]
      refine ⟨_, rfl, ?_, rfl, rfl⟩
      rcases hnc : m.nocolor <;> simp


/-- Rendering reads only the static fields of the mapper, so replacing the
output accumulator and the parent map does not change it. -/
theorem renderLine_withOP (env : Env) (m : BranchMapper) (o : OutputManager)
    (pm : List (String × List String)) (b : String) (d : Nat) :
    renderLine env (m.withOP o pm) b d = renderLine env m b d := rfl

/-- Every successfully rendered row has the fixed column count of the
configuration. -/
theorem renderLine_length (env : Env) (m : BranchMapper) (b : String) (d : Nat)
    (line : OutputLine) (h : renderLine env m b d = Except.ok line) :
    line.columns.length = num_columns_for m.verbosity m.show_subject := by
  rcases hd : dictGet m.branches_info b with _ | binfo
  · simp only [renderLine, hd] at h
    cases h
  rcases binfo with _ | bi <;>
    simp only [renderLine, hd] at h
  · rcases hcv : m.color_for_branch b (env.hash_one b) with e | color
    · rw [hcv] at h
      cases h
    · rw [hcv] at h
      by_cases hv2 : 2 ≤ m.verbosity
      · have hv1 : 1 ≤ m.verbosity := by omega
        by_cases hss : m.show_subject = true <;>
          · simp only [hv1, hv2, hss, if_true, if_false, ite_true, ite_false,
              Bool.not_eq_true] at h
            cases h
            simp [OutputLine.append, OutputLine.mkEmpty, num_columns_for, hv1, hv2, hss]
      · by_cases hv1 : 1 ≤ m.verbosity <;>
          by_cases hss : m.show_subject = true <;>
            · simp only [hv1, hv2, hss, if_true, if_false, ite_true, ite_false,
                Bool.not_eq_true] at h
              cases h
              simp [OutputLine.append, OutputLine.mkEmpty, num_columns_for, hv1, hv2, hss]
  · rcases hcv : m.color_for_branch b (some bi.hash) with e | color
    · rw [hcv] at h
      cases h
    · rw [hcv] at h
      by_cases hv2 : 2 ≤ m.verbosity
      · have hv1 : 1 ≤ m.verbosity := by omega
        by_cases hss : m.show_subject = true <;>
          · simp only [hv1, hv2, hss, if_true, if_false, ite_true, ite_false,
              Bool.not_eq_true] at h
            cases h
            simp [OutputLine.append, OutputLine.mkEmpty, num_columns_for, hv1, hv2, hss]
      · by_cases hv1 : 1 ≤ m.verbosity <;>
          by_cases hss : m.show_subject = true <;>
            · simp only [hv1, hv2, hss, if_true, if_false, ite_true, ite_false,
                Bool.not_eq_true] at h
              cases h
              simp [OutputLine.append, OutputLine.mkEmpty, num_columns_for, hv1, hv2, hss]


/-- Parent resolution only ever raises `KeyError`. -/
theorem resolveParent_error (env : Env) (binfo : BranchesDict) (branch : String)
    (bi : BranchInfo) (e : PyErr)
    (h : resolveParent env binfo branch bi = Except.error e) : e = PyErr.keyError := by
  simp only [resolveParent] at h
  rcases hd : dictGet binfo bi.upstream with _ | info
  · rw [hd] at h
    cases h
    rfl
  · rcases info with _ | bi2
    · rw [hd] at h
      rcases hu : env.upstream branch with _ | u
      · rw [hu] at h
        cases h
      · rw [hu] at h
        simp only at h
        split_ifs at h <;> cases h
    · rw [hd] at h
      cases h

/-- The topology-building loop only ever raises `KeyError`. -/
theorem buildFold_error (env : Env) (binfo : BranchesDict)
    (l : List (String × Option BranchInfo))
    (acc : List String × List String × List (String × List String)) (e : PyErr)
    (h : buildFold env binfo l acc = Except.error e) : e = PyErr.keyError := by
  induction l generalizing acc with
  | nil =>
      obtain ⟨r, g, p⟩ := acc
      simp [buildFold] at h
  | cons en rest ih =>
      obtain ⟨r, g, p⟩ := acc
      obtain ⟨branch, info⟩ := en
      rcases info with _ | bi
      · exact ih _ (by simpa [buildFold] using h)
      · simp only [buildFold] at h
        rcases hr : resolveParent env binfo branch bi with e2 | pr
        · rw [hr] at h
          cases h
          exact resolveParent_error env binfo branch bi _ hr
        · rw [hr] at h
          obtain ⟨parent, isRoot, markGone⟩ := pr
          exact ih _ h

/-- The children loop only shrinks the parent map and preserves the
configuration fields. -/
theorem foldChildren_static
    (f : BranchMapper → String → Except PyErr BranchMapper)
    (hf : ∀ m c m2, f m c = Except.ok m2 →
      List.Sublist m2.parent_map m.parent_map ∧ m2.verbosity = m.verbosity ∧
        m2.show_subject = m.show_subject) :
    ∀ cs m m2, foldChildren f m cs = Except.ok m2 →
      List.Sublist m2.parent_map m.parent_map ∧ m2.verbosity = m.verbosity ∧
        m2.show_subject = m.show_subject := by
  intro cs
  induction cs with
  | nil =>
      intro m m2 h
      simp only [foldChildren] at h
      cases h
      exact ⟨List.Sublist.refl _, rfl, rfl⟩
  | cons c cs ih =>
      intro m m2 h
      simp only [foldChildren] at h
      rcases hc : f m c with e | m1
      · rw [hc] at h
        cases h
      · rw [hc] at h
        obtain ⟨hs1, hv1, hss1⟩ := hf m c m1 hc
        obtain ⟨hs2, hv2, hss2⟩ := ih m1 m2 h
        exact ⟨List.Sublist.trans hs2 hs1, hv2.trans hv1, hss2.trans hss1⟩

/-- A visit only shrinks the parent map and preserves the configuration
fields. -/
theorem append_branch_static (env : Env) (fuel : Nat) :
    ∀ m b d m2, append_branch env fuel m b d = Except.ok m2 →
      List.Sublist m2.parent_map m.parent_map ∧ m2.verbosity = m.verbosity ∧
        m2.show_subject = m.show_subject := by
  induction fuel with
  | zero => intro m b d m2 h; cases h
  | succ fuel2 ih =>
      intro m b d m2 h
      simp only [append_branch] at h
      rcases hr : renderLine env m b d with e | line
      · rw [hr] at h
        cases h
      · simp only [hr] at h
        rcases ho : m.output.append line with e | out2
        · simp only [ho] at h
          cases h
        · simp only [ho] at h
          obtain ⟨hs, hv, hss⟩ := foldChildren_static _
            (fun m3 c m4 hc => ih m3 c (d + 1) m4 hc) _ _ _ h
          refine ⟨List.Sublist.trans ?_ (popD_sublist m.parent_map b), hv, hss⟩
          simpa [BranchMapper.withOP] using hs


/-- The children loop never trips the column-count assertion when the
manager invariant holds, and preserves it. -/
theorem foldChildren_no_assert
    (f : BranchMapper → String → Except PyErr BranchMapper) (V : Nat) (S : Bool) (L : Nat)
    (hf : ∀ m c, m.verbosity = V → m.show_subject = S →
      (m.output.num_columns = none ∨ m.output.num_columns = some L) →
      (f m c ≠ Except.error PyErr.assertionError ∧
       ∀ m2, f m c = Except.ok m2 → m2.verbosity = V ∧ m2.show_subject = S ∧
         (m2.output.num_columns = none ∨ m2.output.num_columns = some L))) :
    ∀ cs m, m.verbosity = V → m.show_subject = S →
      (m.output.num_columns = none ∨ m.output.num_columns = some L) →
      (foldChildren f m cs ≠ Except.error PyErr.assertionError ∧
       ∀ m2, foldChildren f m cs = Except.ok m2 →
         m2.verbosity = V ∧ m2.show_subject = S ∧
         (m2.output.num_columns = none ∨ m2.output.num_columns = some L)) := by
  intro cs
  induction cs with
  | nil =>
      intro m hv hs hinv
      simp only [foldChildren]
      refine ⟨?_, ?_⟩
      · intro hcon
        cases hcon
      · intro m2 h
        cases h
        exact ⟨hv, hs, hinv⟩
  | cons c cs ih =>
      intro m hv hs hinv
      simp only [foldChildren]
      rcases hc : f m c with e | m1
      · refine ⟨?_, fun m2 h => by cases h⟩
        intro hcon
        injection hcon with he
        subst he
        exact (hf m c hv hs hinv).1 hc
      · obtain ⟨hv1, hs1, hinv1⟩ := (hf m c hv hs hinv).2 m1 hc
        exact ih m1 hv1 hs1 hinv1

/-- A visit never trips the column-count assertion when the manager
invariant holds, and preserves it. -/
theorem append_branch_no_assert (env : Env) (fuel : Nat) :
    ∀ m b d, (m.output.num_columns = none ∨
        m.output.num_columns = some (num_columns_for m.verbosity m.show_subject)) →
      (append_branch env fuel m b d ≠ Except.error PyErr.assertionError ∧
       ∀ m2, append_branch env fuel m b d = Except.ok m2 →
         (m2.output.num_columns = none ∨
          m2.output.num_columns = some (num_columns_for m.verbosity m.show_subject))) := by
  induction fuel with
  | zero =>
      intro m b d hinv
      simp only [append_branch]
      refine ⟨?_, ?_⟩
      · intro hcon
        injection hcon with he
        cases he
      · intro m2 h
        cases h
  | succ fuel2 ih =>
      intro m b d hinv
      simp only [append_branch]
      rcases hr : renderLine env m b d with e | line
      · refine ⟨?_, ?_⟩
        · intro hcon
          injection hcon with he
          subst he
          rcases renderLine_error env m b d _ hr with h | h <;> cases h
        · intro m2 h
          cases h
      · have hlen := renderLine_length env m b d line hr
        obtain ⟨out2, ho, hlines, hnc, hcols⟩ := om_append_ok m.output line
          (by rcases hinv with h | h
              · exact Or.inl h
              · exact Or.inr (by rw [h, hlen]))
        simp only [ho]
        have hfold := foldChildren_no_assert
          (fun m2 c => append_branch env fuel2 m2 c (d + 1))
          m.verbosity m.show_subject (num_columns_for m.verbosity m.show_subject)
          (fun m3 c hv3 hs3 hinv3 => by
            have hinv3b : m3.output.num_columns = none ∨
                m3.output.num_columns = some (num_columns_for m3.verbosity m3.show_subject) := by
              rw [hv3, hs3]
              exact hinv3
            constructor
            · exact (ih m3 c (d + 1) hinv3b).1
            · intro m4 h4
              obtain ⟨_, hv4, hs4⟩ := append_branch_static env fuel2 m3 c (d + 1) m4 h4
              have hinv4 := (ih m3 c (d + 1) hinv3b).2 m4 h4
              rw [hv3, hs3] at hinv4
              exact ⟨hv4.trans hv3, hs4.trans hs3, hinv4⟩)
          (sortStrings (popD m.parent_map b).1)
          (m.withOP out2 (popD m.parent_map b).2)
          rfl rfl
          (by simp only [BranchMapper.withOP]
              rw [hcols, hlen]
              exact Or.inr rfl)
        exact ⟨hfold.1, fun m2 h => (hfold.2 m2 h).2.2⟩

/-- The roots loop never trips the column-count assertion. -/
theorem rootsLoop_no_assert (env : Env) :
    ∀ rs m, (m.output.num_columns = none ∨
        m.output.num_columns = some (num_columns_for m.verbosity m.show_subject)) →
      rootsLoop env rs m ≠ Except.error PyErr.assertionError := by
  intro rs
  induction rs with
  | nil =>
      intro m hinv
      simp only [rootsLoop]
      intro hcon
      cases hcon
  | cons r rs ih =>
      intro m hinv
      simp only [rootsLoop]
      rcases ha : append_branch env (m.parent_map.length + 1) m r 0 with e | m2
      · intro hcon
        injection hcon with he
        subst he
        exact (append_branch_no_assert env _ m r 0 hinv).1 ha
      · obtain ⟨_, hv, hs⟩ := append_branch_static env _ m r 0 m2 ha
        have hinv2 := (append_branch_no_assert env _ m r 0 hinv).2 m2 ha
        rw [← hv, ← hs] at hinv2
        exact ih m2 hinv2

/-- The children loop cannot run out of fuel when every call is
sufficiently fueled. -/
theorem foldChildren_no_fuel
    (f : BranchMapper → String → Except PyErr BranchMapper) (N : Nat)
    (hf_sub : ∀ m c m2, f m c = Except.ok m2 →
      List.Sublist m2.parent_map m.parent_map)
    (hf : ∀ m c, m.parent_map.length ≤ N → f m c ≠ Except.error PyErr.outOfFuel) :
    ∀ cs m, m.parent_map.length ≤ N →
      foldChildren f m cs ≠ Except.error PyErr.outOfFuel := by
  intro cs
  induction cs with
  | nil =>
      intro m hlen
      simp only [foldChildren]
      intro hcon
      cases hcon
  | cons c cs ih =>
      intro m hlen
      simp only [foldChildren]
      rcases hc : f m c with e | m1
      · intro hcon
        injection hcon with he
        subst he
        exact hf m c hlen hc
      · exact ih m1 (Nat.le_trans ((hf_sub m c m1 hc).length_le) hlen)

/-- Fuel exceeding the parent-map size is always sufficient: one entry is
consumed per recursion level. -/
theorem append_branch_no_fuel (env : Env) (fuel : Nat) :
    ∀ m b d, m.parent_map.length < fuel →
      append_branch env fuel m b d ≠ Except.error PyErr.outOfFuel := by
  induction fuel with
  | zero => intro m b d hlen; omega
  | succ fuel2 ih =>
      intro m b d hlen
      simp only [append_branch]
      rcases hr : renderLine env m b d with e | line
      · intro hcon
        injection hcon with he
        subst he
        rcases renderLine_error env m b d _ hr with h | h <;> cases h
      · rcases ho : m.output.append line with e | out2
        · simp only [ho]
          intro hcon
          injection hcon with he
          subst he
          cases om_append_error m.output line _ ho
        · simp only [ho]
          rcases hp : popMap m.parent_map b with _ | pr
          · simp only [popD, hp, sortStrings, foldChildren]
            intro hcon
            cases hcon
          · obtain ⟨cs0, pr2⟩ := pr
            simp only [popD, hp]
            have hpl : m.parent_map.length = pr2.length + 1 :=
              popMap_length m.parent_map b cs0 pr2 hp
            exact foldChildren_no_fuel
              (fun m2 c => append_branch env fuel2 m2 c (d + 1)) pr2.length
              (fun m3 c m4 h4 => (append_branch_static env fuel2 m3 c (d + 1) m4 h4).1)
              (fun m3 c hlen3 => ih m3 c (d + 1) (by omega))
              (sortStrings cs0) (m.withOP out2 pr2)
              (Nat.le_refl _)

/-- The roots loop, which fuels each visit with the current map size plus
one, never runs out of fuel. -/
theorem rootsLoop_no_fuel (env : Env) :
    ∀ rs m, rootsLoop env rs m ≠ Except.error PyErr.outOfFuel := by
  intro rs
  induction rs with
  | nil =>
      intro m
      simp only [rootsLoop]
      intro hcon
      cases hcon
  | cons r rs ih =>
      intro m
      simp only [rootsLoop]
      rcases ha : append_branch env (m.parent_map.length + 1) m r 0 with e | m2
      · intro hcon
        injection hcon with he
        subst he
        exact append_branch_no_fuel env _ m r 0 (by omega) ha
      · exact ih m2

/-- A duplicate-free list counts every element at most once. -/
theorem nodup_count_le_one (l : List String) (hnd : l.Nodup) (x : String) :
    l.count x ≤ 1 := by
  induction l with
  | nil => simp
  | cons a l ih =>
      rcases List.nodup_cons.mp hnd with ⟨hna, hnd2⟩
      simp only [List.count_cons]
      by_cases hax : x = a
      · subst hax
        have h0 : l.count x = 0 := List.count_eq_zero.mpr hna
        simp [h0]
      · have hne : ¬ a = x := fun hc => hax hc.symm
        simp only [beq_iff_eq, hne, if_false, ite_false]
        have := ih hnd2
        omega


/-- Lifting a result failure through the output projection of `start`. -/
theorem except_out_match_ne (res : Except PyErr BranchMapper) (e0 : PyErr)
    (hne : res ≠ Except.error e0) :
    (match res with
     | Except.error e => (Except.error e : Except PyErr OutputManager)
     | Except.ok m2 => Except.ok m2.output) ≠ Except.error e0 := by
  rcases res with e | m2
  · simp only
    intro hcon
    injection hcon with he
    subst he
    exact hne rfl
  · simp only
    intro hcon
    cases hcon

theorem stripState_cons_false (c : Char) (cs : List Char) :
    stripState false (c :: cs) = stripState (if c == '\x1b' then true else false) cs := rfl

theorem stripAux_append (xs : List Char) : ∀ (b : Bool) (ys : List Char),
    stripAux b (xs ++ ys) = stripAux b xs ++ stripAux (stripState b xs) ys := by
  induction xs with
  | nil => intro b ys; simp [stripAux, stripState]
  | cons c cs ih =>
      intro b ys
      rcases b with _ | _
      · by_cases hc : c == '\x1b'
        · simp only [List.cons_append, stripAux, stripState, hc, if_true, ite_true]
          exact ih true ys
        · simp only [List.cons_append, stripAux, stripState, hc, Bool.false_eq_true,
            if_false, ite_false, List.cons_append]
          exact congrArg (List.cons c) (ih false ys)
      · by_cases hc : c == 'm'
        · simp only [List.cons_append, stripAux, stripState, hc, if_true, ite_true]
          exact ih false ys
        · simp only [List.cons_append, stripAux, stripState, hc, Bool.false_eq_true,
            if_false, ite_false]
          exact ih true ys

theorem stripAux_plain (cs : List Char) (h : cs.all notEsc = true) :
    stripAux false cs = cs ∧ stripState false cs = false := by
  induction cs with
  | nil => exact ⟨rfl, rfl⟩
  | cons c cs ih =>
      rcases List.all_cons .. ▸ h with h2
      have hc : notEsc c = true := (Bool.and_eq_true .. ▸ h2).1
      have hcs := (Bool.and_eq_true .. ▸ h2).2
      have hne : (c == '\x1b') = false := by
        simp only [notEsc, Bool.not_eq_true'] at hc
        exact hc
      obtain ⟨h1, h2'⟩ := ih hcs
      constructor
      · simp only [stripAux, hne, Bool.false_eq_true, if_false, ite_false, h1]
      · simp only [stripState, hne, Bool.false_eq_true, if_false, ite_false, h2']

theorem stripAux_true_no_m (cs : List Char) (h : cs.all (fun c => !(c == 'm')) = true) :
    stripAux true cs = [] := by
  induction cs with
  | nil => rfl
  | cons c cs ih =>
      have h2 := List.all_cons .. ▸ h
      have hc := (Bool.and_eq_true .. ▸ h2).1
      have hcs := (Bool.and_eq_true .. ▸ h2).2
      have hne : (c == 'm') = false := by
        simp only [Bool.not_eq_true'] at hc
        exact hc
      simp only [stripAux, hne, Bool.false_eq_true, if_false, ite_false]
      exact ih hcs

theorem pyIsSpace_notEsc (c : Char) (h : pyIsSpace c = true) : notEsc c = true := by
  simp only [pyIsSpace, Bool.or_eq_true] at h
  rcases h with ((((h | h) | h) | h) | h) | h <;>
    · rw [notEsc, eq_of_beq h]
      decide

theorem pyIsSpace_not_m (c : Char) (h : pyIsSpace c = true) : (c == 'm') = false := by
  simp only [pyIsSpace, Bool.or_eq_true] at h
  rcases h with ((((h | h) | h) | h) | h) | h <;>
    · rw [eq_of_beq h]
      decide

theorem dropWhile_append_all (p : Char → Bool) (a b : List Char)
    (h : a.all p = true) : List.dropWhile p (a ++ b) = List.dropWhile p b := by
  induction a with
  | nil => rfl
  | cons c cs ih =>
      have h2 := Bool.and_eq_true .. ▸ (List.all_cons .. ▸ h)
      simp only [List.cons_append, List.dropWhile, h2.1, if_true, ite_true]
      exact ih h2.2

theorem rstrip_decomp (s : List Char) :
    ∃ w, s = rstripList s ++ w ∧ w.all pyIsSpace = true := by
  refine ⟨(s.reverse.takeWhile pyIsSpace).reverse, ?_, ?_⟩
  · have h := List.takeWhile_append_dropWhile pyIsSpace s.reverse
    have h2 : s = (List.takeWhile pyIsSpace s.reverse ++ List.dropWhile pyIsSpace s.reverse).reverse := by
      rw [h, List.reverse_reverse]
    rw [rstripList]
    conv_lhs => rw [h2]
    rw [List.reverse_append]
  · rw [List.all_eq_true]
    intro c hc
    exact List.mem_takeWhile_imp (List.mem_reverse.mp hc)

theorem rstripList_append_ws (x w : List Char) (h : w.all pyIsSpace = true) :
    rstripList (x ++ w) = rstripList x := by
  simp only [rstripList, List.reverse_append]
  rw [dropWhile_append_all pyIsSpace w.reverse x.reverse
    (by rw [List.all_eq_true] at h ⊢; intro c hc; exact h c (List.mem_reverse.mp hc))]

theorem rstrip_stripAux_rstrip (s : List Char) :
    rstripList (stripAux false (rstripList s)) = rstripList (stripAux false s) := by
  obtain ⟨w, hs, hw⟩ := rstrip_decomp s
  conv_rhs => rw [hs]
  rw [stripAux_append]
  rcases hst : stripState false (rstripList s) with _ | _
  · have hww : stripAux false w = w := by
      refine (stripAux_plain w ?_).1
      rw [List.all_eq_true] at hw ⊢
      intro c hc
      exact pyIsSpace_notEsc c (hw c hc)
    rw [hww]
    rw [rstripList_append_ws _ _ hw]
  · have hww : stripAux true w = [] := by
      refine stripAux_true_no_m w ?_
      rw [List.all_eq_true] at hw ⊢
      intro c hc
      simpa using pyIsSpace_not_m c (hw c hc)
    rw [hww, List.append_nil]

theorem color_strip (c : String) (h : colorOk c = true) (ys : List Char) :
    stripAux false (c.data ++ ys) = stripAux false ys := by
  have h2 := Bool.and_eq_true .. ▸ h
  have h3 : stripAux false c.data = [] := by
    have := h2.1
    simpa [List.isEmpty_iff] using this
  have h4 : stripState false c.data = false := by
    have := h2.2
    simpa using this
  rw [stripAux_append, h3, h4, List.nil_append]

theorem plain_strip (p : String) (h : plainOk p = true) (ys : List Char) :
    stripAux false (p.data ++ ys) = p.data ++ stripAux false ys := by
  obtain ⟨h1, h2⟩ := stripAux_plain p.data h
  rw [stripAux_append, h1, h2]

theorem spaces_plain (n : Nat) : plainOk (spaces n) = true := by
  simp only [plainOk, spaces]
  rw [List.all_eq_true]
  intro c hc
  have : c = ' ' := List.eq_of_mem_replicate hc
  subst this
  rfl

theorem zip3_wipe (colors cols seps : List String)
    (h1 : colors.length = cols.length) (h2 : seps.length = cols.length) :
    zip3 (List.replicate cols.length "") cols seps =
      (zip3 colors cols seps).map (fun t => ("", t.2.1, t.2.2)) := by
  induction cols generalizing colors seps with
  | nil =>
      rcases colors with _ | ⟨c, cs⟩
      · rcases seps with _ | ⟨s, ss⟩
        · rfl
        · cases h2
      · cases h1
  | cons d ds ih =>
      rcases colors with _ | ⟨c, cs⟩
      · cases h1
      · rcases seps with _ | ⟨s, ss⟩
        · cases h2
        · simp only [List.length_cons, List.replicate, zip3, List.map_cons]
          have e1 : cs.length = ds.length := by simpa using h1
          have e2 : ss.length = ds.length := by simpa using h2
          exact congrArg (List.cons ("", d, s)) (ih cs ss e1 e2)

theorem zip3_mem {α β γ : Type} (a : List α) (b : List β) (c : List γ)
    (t : α × β × γ) (h : t ∈ zip3 a b c) :
    t.1 ∈ a ∧ t.2.1 ∈ b ∧ t.2.2 ∈ c := by
  induction a generalizing b c with
  | nil => simp [zip3] at h
  | cons x xs ih =>
      rcases b with _ | ⟨y, ys⟩
      · simp [zip3] at h
      · rcases c with _ | ⟨z, zs⟩
        · simp [zip3] at h
        · simp only [zip3] at h
          rcases List.mem_cons.mp h with rfl | h2
          · exact ⟨List.mem_cons_self _ _, List.mem_cons_self _ _, List.mem_cons_self _ _⟩
          · obtain ⟨m1, m2, m3⟩ := ih ys zs h2
            exact ⟨List.mem_cons_of_mem _ m1, List.mem_cons_of_mem _ m2,
              List.mem_cons_of_mem _ m3⟩

theorem paddedCells_strip (cells : List (String × String × String)) :
    ∀ maxes : List Nat,
      cells.all (fun t => colorOk t.1 && plainOk t.2.1 && plainOk t.2.2) = true →
      stripAux false (paddedCells cells maxes).data =
        (paddedCells (cells.map (fun t => ("", t.2.1, t.2.2))) maxes).data := by
  induction cells with
  | nil =>
      intro maxes h
      rcases maxes with _ | ⟨m, ms⟩ <;> rfl
  | cons t rest ih =>
      intro maxes h
      obtain ⟨c, d, s⟩ := t
      have hall := Bool.and_eq_true .. ▸ (List.all_cons .. ▸ h)
      have hcell := Bool.and_eq_true .. ▸ hall.1
      have hc : colorOk c = true := (Bool.and_eq_true .. ▸ hcell.1).1
      have hd : plainOk d = true := (Bool.and_eq_true .. ▸ hcell.1).2
      have hs : plainOk s = true := hcell.2
      have hrest := hall.2
      rcases maxes with _ | ⟨m, ms⟩
      · rfl
      · by_cases hm : m == 0
        · simp only [paddedCells, List.map_cons, hm, if_true, ite_true]
          simp only [String.data_append, List.nil_append]
          have := ih ms hrest
          simpa using this
        · simp only [paddedCells, List.map_cons, hm, Bool.false_eq_true, if_false, ite_false]
          simp only [String.data_append, List.append_assoc, List.nil_append]
          rw [color_strip c hc, plain_strip d hd, plain_strip (spaces (m - d.length))
            (spaces_plain _), plain_strip s hs, ih ms hrest]

theorem line_nocolor_strip (l : OutputLine) (maxes : List Nat)
    (hwf : wellFormedLine l = true) :
    (wipeLine l).as_padded_string maxes =
      pyRstrip (stripEscapes (l.as_padded_string maxes)) := by
  simp only [wellFormedLine] at hwf
  have h1 := Bool.and_eq_true .. ▸ hwf
  have h2 := Bool.and_eq_true .. ▸ h1.1
  have h3 := Bool.and_eq_true .. ▸ h2.1
  have h4 := Bool.and_eq_true .. ▸ h3.1
  have hcolors : l.colors.all colorOk = true := h4.1
  have hcols : l.columns.all plainOk = true := h4.2
  have hseps : l.separators.all plainOk = true := h3.2
  have hlen1 : l.colors.length = l.columns.length := by
    have := h2.2
    simpa using this
  have hlen2 : l.separators.length = l.columns.length := by
    have := h1.2
    simpa using this
  have hcells : (zip3 l.colors l.columns l.separators).all
      (fun t => colorOk t.1 && plainOk t.2.1 && plainOk t.2.2) = true := by
    rw [List.all_eq_true]
    intro t ht
    obtain ⟨m1, m2, m3⟩ := zip3_mem _ _ _ t ht
    have c1 := List.all_eq_true.mp hcolors _ m1
    have c2 := List.all_eq_true.mp hcols _ m2
    have c3 := List.all_eq_true.mp hseps _ m3
    simp [c1, c2, c3]
  have hA := paddedCells_strip (zip3 l.colors l.columns l.separators) maxes hcells
  show pyRstrip (paddedCells (zip3 (wipeLine l).colors (wipeLine l).columns
      (wipeLine l).separators) maxes) = _
  have hwipe : zip3 (wipeLine l).colors (wipeLine l).columns (wipeLine l).separators =
      (zip3 l.colors l.columns l.separators).map (fun t => ("", t.2.1, t.2.2)) := by
    simp only [wipeLine]
    exact zip3_wipe l.colors l.columns l.separators hlen1 hlen2
  rw [hwipe]
  simp only [OutputLine.as_padded_string, pyRstrip, stripEscapes]
  rw [rstrip_stripAux_rstrip, hA]

theorem om_append_pair (mC mN : OutputManager) (line : OutputLine)
    (hL : mN.lines = mC.lines.map wipeLine)
    (hmx : mN.max_column_lengths = mC.max_column_lengths)
    (hnum : mN.num_columns = mC.num_columns)
    (hncC : mC.nocolor = false) (hncN : mN.nocolor = true)
    (oC : OutputManager) (h : mC.append line = Except.ok oC) :
    ∃ oN, mN.append line = Except.ok oN ∧
      oN.lines = oC.lines.map wipeLine ∧
      oN.max_column_lengths = oC.max_column_lengths ∧
      oN.num_columns = oC.num_columns ∧
      oN.nocolor = true ∧ oC.nocolor = false := by
  rcases hn : mC.num_columns with _ | n
  · simp only [OutputManager.append, hn, hnum, hmx, hncC, hncN,
      beq_self_eq_true, if_true, ite_true] at h ⊢
    cases h
    refine ⟨_, rfl, ?_, ?_, rfl, rfl, rfl⟩
    · simp [hL, wipeLine]
    · simp [hmx]
  · by_cases h0 : n = 0
    · subst h0
      simp only [OutputManager.append, hn, hnum, hmx, hncC, hncN,
        beq_self_eq_true, if_true, ite_true] at h ⊢
      cases h
      refine ⟨_, rfl, ?_, ?_, rfl, rfl, rfl⟩
      · simp [hL, wipeLine]
      · simp [hmx]
    · have hb : (n == 0) = false := by simp [h0]
      simp only [OutputManager.append, hn, hnum, hmx, hncC, hncN, hb,
        Bool.false_eq_true, if_false, ite_false] at h ⊢
      by_cases hc : (n == line.columns.length) = true
      · have hn2 : n = line.columns.length := by simpa using hc
        simp only [hc, if_true, ite_true] at h ⊢
        cases h
        refine ⟨_, rfl, ?_, ?_, rfl, rfl, rfl⟩
        · simp [hL, wipeLine, hn2]
        · simp [hmx]
      · rw [Bool.not_eq_true] at hc
        rw [hc] at h
        cases h

theorem om_append_plain (m : OutputManager) (line : OutputLine)
    (m2 : OutputManager) (hnc : m.nocolor = false)
    (h : m.append line = Except.ok m2) :
    m2.lines = m.lines ++ [line] ∧ m2.nocolor = false := by
  simp only [OutputManager.append, hnc, Bool.false_eq_true, if_false,
    ite_false] at h
  split_ifs at h <;> cases h <;> exact ⟨rfl, rfl⟩

theorem append_all_pair (rows : List OutputLine) (mC mN : OutputManager)
    (hL : mN.lines = mC.lines.map wipeLine)
    (hmx : mN.max_column_lengths = mC.max_column_lengths)
    (hnum : mN.num_columns = mC.num_columns)
    (hncC : mC.nocolor = false) (hncN : mN.nocolor = true)
    (oC : OutputManager) (h : append_all mC rows = Except.ok oC) :
    ∃ oN, append_all mN rows = Except.ok oN ∧
      oN.lines = oC.lines.map wipeLine ∧
      oN.max_column_lengths = oC.max_column_lengths ∧
      oN.num_columns = oC.num_columns ∧
      oN.nocolor = true ∧ oC.nocolor = false := by
  induction rows generalizing mC mN with
  | nil =>
      cases h
      exact ⟨mN, rfl, hL, hmx, hnum, hncN, hncC⟩
  | cons l ls ih =>
      simp only [append_all] at h ⊢
      rcases h1 : mC.append l with e | m2
      · rw [h1] at h
        cases h
      · rw [h1] at h
        obtain ⟨n2, hn2, hL2, hmx2, hnum2, hncN2, hncC2⟩ :=
          om_append_pair mC mN l hL hmx hnum hncC hncN m2 h1
        rw [hn2]
        exact ih m2 n2 hL2 hmx2 hnum2 hncC2 hncN2 h

theorem append_all_plain (rows : List OutputLine) (m oC : OutputManager)
    (hnc : m.nocolor = false) (h : append_all m rows = Except.ok oC) :
    oC.lines = m.lines ++ rows := by
  induction rows generalizing m with
  | nil =>
      cases h
      simp
  | cons l ls ih =>
      simp only [append_all] at h
      rcases h1 : m.append l with e | m2
      · rw [h1] at h
        cases h
      · rw [h1] at h
        obtain ⟨hl2, hnc2⟩ := om_append_plain m l m2 hnc h1
        rw [ih m2 hnc2 h, hl2]
        simp

/-- A successful dict lookup returns a stored entry. -/
theorem dictGet_mem (l : BranchesDict) (k : String) (v : Option BranchInfo)
    (h : dictGet l k = some v) : (k, v) ∈ l := by
  induction l with
  | nil => simp [dictGet] at h
  | cons e rest ih =>
      simp only [dictGet, List.find?] at h
      by_cases he : e.1 == k
      · rw [he] at h
        simp only [Option.some.injEq] at h
        have hk : e.1 = k := eq_of_beq he
        have he2 : e = (k, v) := by rw [← hk, ← h]
        exact List.mem_cons.mpr (Or.inl he2.symm)
      · simp only [he] at h
        right
        exact ih (by simpa [dictGet] using h)

/-- With duplicate-free keys, every entry is found by the dict lookup. -/
theorem dictGet_of_mem_nodup (l : BranchesDict) (k : String) (v : Option BranchInfo)
    (hnd : (l.map Prod.fst).Nodup) (hmem : (k, v) ∈ l) : dictGet l k = some v := by
  induction l with
  | nil => cases hmem
  | cons e rest ih =>
      simp only [List.map_cons, List.nodup_cons] at hnd
      rcases List.mem_cons.mp hmem with heq | htl
      · subst heq
        simp [dictGet, List.find?]
      · have hne : ¬ (e.1 == k) = true := by
          intro hc
          have : e.1 = k := eq_of_beq hc
          exact hnd.1 (this ▸ List.mem_map_of_mem Prod.fst htl)
        simp only [dictGet, List.find?, Bool.not_eq_true] at hne ⊢
        rw [hne]
        exact ih hnd.2 htl

/-- A defaultdict append introduces no key other than the appended one. -/
theorem pmAppend_keys_subset (pm : List (String × List String)) (k v x : String)
    (h : x ∈ keysOf (pmAppend pm k v)) : x ∈ keysOf pm ∨ x = k := by
  induction pm with
  | nil =>
      simp only [pmAppend, keysOf, List.map_cons, List.map_nil] at h
      rcases List.mem_cons.mp h with h | h
      · exact Or.inr h
      · cases h
  | cons e rest ih =>
      obtain ⟨k2, vs⟩ := e
      simp only [pmAppend] at h
      by_cases hk : k2 == k
      · rw [if_pos hk] at h
        simp only [keysOf, List.map_cons] at h ⊢
        exact Or.inl h
      · rw [if_neg hk] at h
        simp only [keysOf, List.map_cons, List.mem_cons] at h ⊢
        rcases h with h | h
        · exact Or.inl (Or.inl h)
        · rcases ih h with h2 | h2
          · exact Or.inl (Or.inr h2)
          · exact Or.inr h2

/-- A defaultdict append keeps the keys duplicate-free. -/
theorem pmAppend_keys_nodup (pm : List (String × List String)) (k v : String)
    (hnd : (keysOf pm).Nodup) : (keysOf (pmAppend pm k v)).Nodup := by
  induction pm with
  | nil => simp [pmAppend, keysOf]
  | cons e rest ih =>
      obtain ⟨k2, vs⟩ := e
      simp only [keysOf, List.map_cons, List.nodup_cons] at hnd
      simp only [pmAppend]
      by_cases hk : k2 == k
      · rw [if_pos hk]
        simp only [keysOf, List.map_cons, List.nodup_cons]
        exact hnd
      · rw [if_neg hk]
        simp only [keysOf, List.map_cons, List.nodup_cons]
        refine ⟨?_, ih hnd.2⟩
        intro hc
        rcases pmAppend_keys_subset rest k v k2 hc with h | h
        · exact hnd.1 h
        · exact hk (beq_iff_eq .. |>.mpr h)

/-- Every value after a defaultdict append was either already present or is the appended one. -/
theorem pmAppend_value_src (pm : List (String × List String)) (k v : String)
    (k2 : String) (cs : List String) (x : String)
    (hmem : (k2, cs) ∈ pmAppend pm k v) (hx : x ∈ cs) :
    (∃ cs0, (k2, cs0) ∈ pm ∧ x ∈ cs0) ∨ x = v := by
  induction pm with
  | nil =>
      simp only [pmAppend, List.mem_singleton] at hmem
      obtain ⟨rfl, rfl⟩ := Prod.mk.injEq .. ▸ hmem
      rcases List.mem_singleton.mp hx with rfl
      exact Or.inr rfl
  | cons e rest ih =>
      obtain ⟨k3, vs⟩ := e
      simp only [pmAppend] at hmem
      by_cases hk : k3 == k
      · rw [if_pos hk] at hmem
        rcases List.mem_cons.mp hmem with heq | htl
        · obtain ⟨rfl, rfl⟩ := Prod.mk.injEq .. ▸ heq
          rcases List.mem_append.mp hx with h | h
          · exact Or.inl ⟨vs, List.mem_cons_self _ _, h⟩
          · exact Or.inr (List.mem_singleton.mp h)
        · exact Or.inl ⟨cs, List.mem_cons_of_mem _ htl, hx⟩
      · rw [if_neg hk] at hmem
        rcases List.mem_cons.mp hmem with heq | htl
        · obtain ⟨rfl, rfl⟩ := Prod.mk.injEq .. ▸ heq
          exact Or.inl ⟨cs, List.mem_cons_self _ _, hx⟩
        · rcases ih htl with ⟨cs0, hm0, hx0⟩ | h
          · exact Or.inl ⟨cs0, List.mem_cons_of_mem _ hm0, hx0⟩
          · exact Or.inr h

/-- The build fold keeps the parent-map keys duplicate-free. -/
theorem buildFold_keys_nodup (env : Env) (binfo : BranchesDict)
    (l : List (String × Option BranchInfo))
    (roots gone : List String) (pm : List (String × List String))
    (roots' gone' : List String) (pm' : List (String × List String))
    (hf : buildFold env binfo l (roots, gone, pm) = Except.ok (roots', gone', pm'))
    (hnd : (keysOf pm).Nodup) : (keysOf pm').Nodup := by
  induction l generalizing roots gone pm with
  | nil =>
      simp only [buildFold] at hf
      obtain ⟨rfl, rfl, rfl⟩ := Prod.mk.injEq .. ▸ (Except.ok.injEq .. ▸ hf)
      exact hnd
  | cons e rest ih =>
      obtain ⟨branch, info⟩ := e
      rcases info with _ | bi
      · exact ih roots gone pm (by simpa [buildFold] using hf) hnd
      · simp only [buildFold] at hf
        rcases hr : resolveParent env binfo branch bi with er | pr
        · rw [hr] at hf
          cases hf
        · rw [hr] at hf
          obtain ⟨parent, isRoot, markGone⟩ := pr
          exact ih _ _ _ hf (pmAppend_keys_nodup pm parent branch hnd)

/-- Every child recorded by the build fold is a branch with a truthy entry of the bulk map. -/
theorem buildFold_values_full (env : Env) (binfo : BranchesDict)
    (l : List (String × Option BranchInfo))
    (roots gone : List String) (pm : List (String × List String))
    (roots' gone' : List String) (pm' : List (String × List String))
    (hf : buildFold env binfo l (roots, gone, pm) = Except.ok (roots', gone', pm'))
    (hl : ∀ b bi, (b, some bi) ∈ l → ∃ bi2, (b, some bi2) ∈ binfo)
    (hpm : ∀ k cs x, (k, cs) ∈ pm → x ∈ cs → ∃ bi2, (x, some bi2) ∈ binfo) :
    ∀ k cs x, (k, cs) ∈ pm' → x ∈ cs → ∃ bi2, (x, some bi2) ∈ binfo := by
  induction l generalizing roots gone pm with
  | nil =>
      simp only [buildFold] at hf
      obtain ⟨rfl, rfl, rfl⟩ := Prod.mk.injEq .. ▸ (Except.ok.injEq .. ▸ hf)
      exact hpm
  | cons e rest ih =>
      obtain ⟨branch, info⟩ := e
      rcases info with _ | bi
      · exact ih roots gone pm (by simpa [buildFold] using hf)
          (fun b bi2 hm => hl b bi2 (List.mem_cons_of_mem _ hm)) hpm
      · simp only [buildFold] at hf
        rcases hr : resolveParent env binfo branch bi with er | pr
        · rw [hr] at hf
          cases hf
        · rw [hr] at hf
          obtain ⟨parent, isRoot, markGone⟩ := pr
          refine ih _ _ _ hf
            (fun b bi2 hm => hl b bi2 (List.mem_cons_of_mem _ hm)) ?_
          intro k cs x hmem hx
          rcases pmAppend_value_src pm parent branch k cs x hmem hx with ⟨cs0, hm0, hx0⟩ | rfl
          · exact hpm k cs0 x hm0 hx0
          · exact hl x bi (List.mem_cons_self _ _)

/-- A parent that is not registered as a root has a truthy entry of its own. -/
theorem resolveParent_not_root_full (env : Env) (binfo : BranchesDict)
    (branch : String) (bi : BranchInfo) (p : String) (mg : Bool)
    (h : resolveParent env binfo branch bi = Except.ok (p, false, mg)) :
    ∃ bj, dictGet binfo p = some (some bj) := by
  simp only [resolveParent] at h
  rcases hd : dictGet binfo bi.upstream with _ | v
  · simp only [hd] at h
    cases h
  · rcases v with _ | bj
    · simp only [hd] at h
      rcases hu : env.upstream branch with _ | u
      · simp only [hu] at h
        simp at h
      · simp only [hu] at h
        by_cases hne : (u != "") = true
        · rw [if_pos hne] at h
          simp at h
        · rw [if_neg hne] at h
          simp at h
    · simp only [hd] at h
      simp only [Except.ok.injEq, Prod.mk.injEq] at h
      obtain ⟨rfl, -, -⟩ := h
      exact ⟨bj, hd⟩

/-- The color classifier never raises on a present hash. -/
theorem color_for_branch_some_ok (m : BranchMapper) (b : String) (hh : String) :
    ∃ c, m.color_for_branch b (some hh) = Except.ok c := by
  simp only [BranchMapper.color_for_branch]
  split_ifs <;> exact ⟨_, rfl⟩

/-- The color classifier never raises when one of the pre-hash cascade cases applies. -/
theorem color_for_branch_cascade_ok (m : BranchMapper) (b : String)
    (bh : Option String)
    (h : (startsWithPy b "origin" || startsWithPy b "branch-heads" ||
      m.is_invalid_parent b || m.tag_set.contains b) = true) :
    ∃ c, m.color_for_branch b bh = Except.ok c := by
  simp only [BranchMapper.color_for_branch]
  by_cases h1 : startsWithPy b "origin"
  · simp only [h1, if_true, ite_true]
    exact ⟨_, rfl⟩
  · by_cases h2 : startsWithPy b "branch-heads"
    · simp only [h1, h2, Bool.false_eq_true, if_false, ite_false, if_true, ite_true]
      exact ⟨_, rfl⟩
    · have h3 : (m.is_invalid_parent b || m.tag_set.contains b) = true := by
        simp only [h1, h2] at h
        simpa using h
      simp only [h1, h2, h3, Bool.false_eq_true, if_false, ite_false, if_true, ite_true]
      exact ⟨_, rfl⟩

/-- Rendering succeeds for a known branch whenever the color classifier does. -/
theorem renderLine_ok_of_color (env : Env) (m : BranchMapper) (b : String)
    (d : Nat) (binfo0 : Option BranchInfo)
    (hd : dictGet m.branches_info b = some binfo0)
    (hc : ∃ c, m.color_for_branch b
      (match binfo0 with
       | some bi => some bi.hash
       | none => env.hash_one b) = Except.ok c) :
    ∃ l, renderLine env m b d = Except.ok l := by
  obtain ⟨c, hc⟩ := hc
  simp only [renderLine, hd, hc]
  exact ⟨_, rfl⟩

/-- Rendering always succeeds on a branch with a truthy entry. -/
theorem renderLine_full_ok (env : Env) (m : BranchMapper) (b : String) (d : Nat)
    (bi : BranchInfo) (hd : dictGet m.branches_info b = some (some bi)) :
    ∃ l, renderLine env m b d = Except.ok l :=
  renderLine_ok_of_color env m b d (some bi) hd (color_for_branch_some_ok m b bi.hash)

/-- Rendering succeeds on an empty-entry branch whose color is determined without a hash, or whose hash resolves. -/
theorem renderLine_empty_ok (env : Env) (m : BranchMapper) (b : String) (d : Nat)
    (hd : dictGet m.branches_info b = some none)
    (hsafe : ((env.hash_one b).isSome || b == "" || m.gone_branches.contains b ||
      startsWithPy b "origin" || startsWithPy b "branch-heads" ||
      m.tag_set.contains b) = true) :
    ∃ l, renderLine env m b d = Except.ok l := by
  refine renderLine_ok_of_color env m b d none hd ?_
  rcases hh : env.hash_one b with _ | hv
  · rw [hh] at hsafe
    simp only [Option.isSome_none, Bool.false_or] at hsafe
    refine color_for_branch_cascade_ok m b none ?_
    simp only [BranchMapper.is_invalid_parent, Bool.or_eq_true] at hsafe ⊢
    tauto
  · exact color_for_branch_some_ok m b hv

/-- Every name visited by the fold is an iterated child or a stored child of the map. -/
theorem foldVisits_names
    (g : List (String × List String) → String →
      List (String × Nat) × List (String × List String))
    (hg_sub : ∀ pm c, List.Sublist (g pm c).2 pm)
    (hg_names : ∀ pm c x, x ∈ (g pm c).1.map Prod.fst →
      x = c ∨ ∃ e ∈ pm, x ∈ e.2) :
    ∀ cs pm x, x ∈ (foldVisits g pm cs).1.map Prod.fst →
      x ∈ cs ∨ ∃ e ∈ pm, x ∈ e.2 := by
  intro cs
  induction cs with
  | nil => intro pm x h; cases h
  | cons c cs ih =>
      intro pm x h
      simp only [foldVisits, List.map_append, List.mem_append] at h
      rcases h with h | h
      · rcases hg_names pm c x h with rfl | h2
        · exact Or.inl (List.mem_cons_self _ _)
        · exact Or.inr h2
      · rcases ih (g pm c).2 x h with h2 | ⟨e, he, hx⟩
        · exact Or.inl (List.mem_cons_of_mem _ h2)
        · exact Or.inr ⟨e, (hg_sub pm c).subset he, hx⟩

/-- Every name visited below a branch is that branch or a stored child of the map. -/
theorem visit_branch_names (fuel : Nat) :
    ∀ pm b d x, x ∈ (visit_branch fuel pm b d).1.map Prod.fst →
      x = b ∨ ∃ e ∈ pm, x ∈ e.2 := by
  induction fuel with
  | zero => intro pm b d x h; simp [visit_branch] at h
  | succ fuel2 ih =>
      intro pm b d x h
      simp only [visit_branch, List.map_cons] at h
      rcases List.mem_cons.mp h with rfl | h2
      · exact Or.inl rfl
      · rcases hp : popMap pm b with _ | pr
        · simp only [popD, hp, sortStrings, foldVisits] at h2
          cases h2
        · obtain ⟨cs0, pr2⟩ := pr
          simp only [popD, hp] at h2
          have hsub2 : List.Sublist pr2 pm := by
            have := popD_sublist pm b
            simpa [popD, hp] using this
          obtain ⟨pre, post, hpm, hpr2, _⟩ := popMap_eq_some pm b cs0 pr2 hp
          have hb0 : (b, cs0) ∈ pm := by
            rw [hpm]
            exact List.mem_append.mpr (Or.inr (List.mem_cons_self _ _))
          rcases foldVisits_names
            (fun pm2 c => visit_branch fuel2 pm2 c (d + 1))
            (fun pm2 c => visit_branch_sublist fuel2 pm2 c (d + 1))
            (fun pm2 c y hy => ih pm2 c (d + 1) y hy)
            (sortStrings cs0) pr2 x h2 with h3 | ⟨e, he, hx⟩
          · exact Or.inr ⟨(b, cs0), hb0, (sortStrings_mem cs0 x).mp h3⟩
          · exact Or.inr ⟨e, hsub2.subset he, hx⟩

/-- Every name visited by the roots loop is a listed root or a stored child of the map. -/
theorem visits_roots_names (rs : List String) :
    ∀ pm x, x ∈ (visits_roots rs pm).1.map Prod.fst →
      x ∈ rs ∨ ∃ e ∈ pm, x ∈ e.2 := by
  induction rs with
  | nil => intro pm x h; cases h
  | cons r rs ih =>
      intro pm x h
      simp only [visits_roots, List.map_append, List.mem_append] at h
      rcases h with h | h
      · rcases visit_branch_names (pm.length + 1) pm r 0 x h with rfl | h2
        · exact Or.inl (List.mem_cons_self _ _)
        · exact Or.inr h2
      · rcases ih _ x h with h2 | ⟨e, he, hx⟩
        · exact Or.inl (List.mem_cons_of_mem _ h2)
        · exact Or.inr ⟨e, (visit_branch_sublist _ pm r 0).subset he, hx⟩

/-- The stateful children loop follows its pure visit mirror: same consumed map, and one rendered row appended per visit. -/
theorem foldChildren_sim (env : Env) (M : BranchMapper) (L : Nat)
    (f : BranchMapper → String → Except PyErr BranchMapper)
    (g : List (String × List String) → String →
      List (String × Nat) × List (String × List String))
    (hg_sub : ∀ pm c, List.Sublist (g pm c).2 pm)
    (N : Nat)
    (hfg : ∀ o pm c, pm.length ≤ N → o.num_columns = some L →
      (∀ p ∈ (g pm c).1, ∃ l, renderLine env M p.1 p.2 = Except.ok l) →
      ∃ o2, f (M.withOP o pm) c = Except.ok (M.withOP o2 (g pm c).2) ∧
        o2.lines.map OutputLine.columns =
          o.lines.map OutputLine.columns ++
            (g pm c).1.map (rendered_columns env M) ∧
        o2.num_columns = some L) :
    ∀ cs o pm, pm.length ≤ N → o.num_columns = some L →
      (∀ p ∈ (foldVisits g pm cs).1, ∃ l, renderLine env M p.1 p.2 = Except.ok l) →
      ∃ o2, foldChildren f (M.withOP o pm) cs =
          Except.ok (M.withOP o2 (foldVisits g pm cs).2) ∧
        o2.lines.map OutputLine.columns =
          o.lines.map OutputLine.columns ++
            (foldVisits g pm cs).1.map (rendered_columns env M) ∧
        o2.num_columns = some L := by
  intro cs
  induction cs with
  | nil =>
      intro o pm hlen hnum hren
      exact ⟨o, rfl, by simp [foldVisits], hnum⟩
  | cons c cs ih =>
      intro o pm hlen hnum hren
      simp only [foldVisits] at hren ⊢
      have hren1 : ∀ p ∈ (g pm c).1, ∃ l, renderLine env M p.1 p.2 = Except.ok l :=
        fun p hp => hren p (List.mem_append.mpr (Or.inl hp))
      obtain ⟨o1, ho1, hl1, hn1⟩ := hfg o pm c hlen hnum hren1
      have hlen2 : (g pm c).2.length ≤ N :=
        Nat.le_trans ((hg_sub pm c).length_le) hlen
      have hren2 : ∀ p ∈ (foldVisits g (g pm c).2 cs).1,
          ∃ l, renderLine env M p.1 p.2 = Except.ok l :=
        fun p hp => hren p (List.mem_append.mpr (Or.inr hp))
      obtain ⟨o2, ho2, hl2, hn2⟩ := ih o1 (g pm c).2 hlen2 hn1 hren2
      refine ⟨o2, ?_, ?_, hn2⟩
      · simp only [foldChildren, ho1]
        exact ho2
      · rw [hl2, hl1]
        simp [List.map_append]

/-- A visit of `__append_branch` follows its pure mirror: with sufficient fuel and all rendering succeeding, it succeeds, consumes the mirrored map and appends exactly the mirrored rows. -/
theorem append_branch_sim (env : Env) (M : BranchMapper) (fuel : Nat) :
    ∀ pm b d o, pm.length < fuel →
      (o.num_columns = none ∨
        o.num_columns = some (num_columns_for M.verbosity M.show_subject)) →
      (∀ p ∈ (visit_branch fuel pm b d).1, ∃ l, renderLine env M p.1 p.2 = Except.ok l) →
      ∃ o2, append_branch env fuel (M.withOP o pm) b d =
          Except.ok (M.withOP o2 (visit_branch fuel pm b d).2) ∧
        o2.lines.map OutputLine.columns =
          o.lines.map OutputLine.columns ++
            (visit_branch fuel pm b d).1.map (rendered_columns env M) ∧
        o2.num_columns = some (num_columns_for M.verbosity M.show_subject) := by
  induction fuel with
  | zero => intro pm b d o hlen; omega
  | succ fuel2 ih =>
      intro pm b d o hlen hinv hren
      obtain ⟨line, hline⟩ := hren (b, d)
        (by simp [visit_branch])
      have hlineM : renderLine env (M.withOP o pm) b d = Except.ok line := by
        rw [renderLine_withOP]
        exact hline
      have hlen2 := renderLine_length env M b d line hline
      obtain ⟨out2, ho, hlines, hnc, hcols⟩ := om_append_ok o line
        (by rcases hinv with h | h
            · exact Or.inl h
            · exact Or.inr (by rw [h, hlen2]))
      have hrc : rendered_columns env M (b, d) = line.columns := by
        simp [rendered_columns, hline]
      rcases hp : popMap pm b with _ | pr
      · simp only [visit_branch, popD, hp, sortStrings, foldVisits] at hren ⊢
        refine ⟨out2, ?_, ?_, ?_⟩
        · simp only [append_branch, hlineM]
          show (match (M.withOP o pm).output.append line with
            | Except.error e => Except.error e
            | Except.ok out3 =>
                foldChildren (fun m2 c => append_branch env fuel2 m2 c (d + 1))
                  ((M.withOP o pm).withOP out3 (popD (M.withOP o pm).parent_map b).2)
                  (sortStrings (popD (M.withOP o pm).parent_map b).1)) =
            Except.ok (M.withOP out2 pm)
          show (match o.append line with
            | Except.error e => Except.error e
            | Except.ok out3 =>
                foldChildren (fun m2 c => append_branch env fuel2 m2 c (d + 1))
                  ((M.withOP o pm).withOP out3 (popD pm b).2)
                  (sortStrings (popD pm b).1)) =
            Except.ok (M.withOP out2 pm)
          rw [ho]
          simp only [popD, hp, sortStrings, foldChildren]
          rfl
        · rw [hlines]
          simp [hrc]
        · rw [hcols, hlen2]
      · obtain ⟨cs0, pr2⟩ := pr
        have hpl : pm.length = pr2.length + 1 := popMap_length pm b cs0 pr2 hp
        simp only [visit_branch, popD, hp] at hren ⊢
        have hren2 : ∀ p ∈ (foldVisits
            (fun pm2 c => visit_branch fuel2 pm2 c (d + 1)) pr2 (sortStrings cs0)).1,
            ∃ l, renderLine env M p.1 p.2 = Except.ok l :=
          fun p hpmem => hren p (List.mem_cons_of_mem _ hpmem)
        obtain ⟨o2, ho2, hl2, hn2⟩ := foldChildren_sim env M
          (num_columns_for M.verbosity M.show_subject)
          (fun m2 c => append_branch env fuel2 m2 c (d + 1))
          (fun pm2 c => visit_branch fuel2 pm2 c (d + 1))
          (fun pm2 c => visit_branch_sublist fuel2 pm2 c (d + 1))
          pr2.length
          (fun o3 pm3 c hlen3 hnum3 hren3 =>
            ih pm3 c (d + 1) o3 (by omega) (Or.inr hnum3) hren3)
          (sortStrings cs0) out2 pr2 (Nat.le_refl _)
          (by rw [hcols, hlen2]) hren2
        refine ⟨o2, ?_, ?_, hn2⟩
        · simp only [append_branch, hlineM]
          show (match o.append line with
            | Except.error e => Except.error e
            | Except.ok out3 =>
                foldChildren (fun m2 c => append_branch env fuel2 m2 c (d + 1))
                  ((M.withOP o pm).withOP out3 (popD pm b).2)
                  (sortStrings (popD pm b).1)) = _
          rw [ho]
          simp only [popD, hp]
          exact ho2
        · rw [hl2, hlines]
          simp [hrc]

/-- The whole roots loop follows its pure visit mirror, appending exactly one rendered row per visit. -/
theorem rootsLoop_sim (env : Env) (M : BranchMapper) :
    ∀ rs o pm,
      (o.num_columns = none ∨
        o.num_columns = some (num_columns_for M.verbosity M.show_subject)) →
      (∀ p ∈ (visits_roots rs pm).1, ∃ l, renderLine env M p.1 p.2 = Except.ok l) →
      ∃ o2, rootsLoop env rs (M.withOP o pm) =
          Except.ok (M.withOP o2 (visits_roots rs pm).2) ∧
        o2.lines.map OutputLine.columns =
          o.lines.map OutputLine.columns ++
            (visits_roots rs pm).1.map (rendered_columns env M) ∧
        (o2.num_columns = none ∨
          o2.num_columns = some (num_columns_for M.verbosity M.show_subject)) := by
  intro rs
  induction rs with
  | nil =>
      intro o pm hinv hren
      exact ⟨o, rfl, by simp [visits_roots], hinv⟩
  | cons r rs ih =>
      intro o pm hinv hren
      simp only [visits_roots] at hren ⊢
      have hren1 : ∀ p ∈ (visit_branch (pm.length + 1) pm r 0).1,
          ∃ l, renderLine env M p.1 p.2 = Except.ok l :=
        fun p hp => hren p (List.mem_append.mpr (Or.inl hp))
      obtain ⟨o1, ho1, hl1, hn1⟩ := append_branch_sim env M (pm.length + 1)
        pm r 0 o (by omega) hinv hren1
      have hren2 : ∀ p ∈ (visits_roots rs (visit_branch (pm.length + 1) pm r 0).2).1,
          ∃ l, renderLine env M p.1 p.2 = Except.ok l :=
        fun p hp => hren p (List.mem_append.mpr (Or.inr hp))
      obtain ⟨o2, ho2, hl2, hn2⟩ := ih o1 (visit_branch (pm.length + 1) pm r 0).2
        (Or.inr hn1) hren2
      refine ⟨o2, ?_, ?_, hn2⟩
      · simp only [rootsLoop]
        show (match append_branch env ((M.withOP o pm).parent_map.length + 1)
            (M.withOP o pm) r 0 with
          | Except.error e => Except.error e
          | Except.ok m2 => rootsLoop env rs m2) = _
        have hpm : (M.withOP o pm).parent_map = pm := rfl
        rw [hpm, ho1]
        exact ho2
      · rw [hl2, hl1]
        simp [List.map_append]

/-- Every branch with a truthy entry whose computed-parent chain reaches an anchor is visited by the roots loop. -/
theorem full_consume (env : Env) (binfo : BranchesDict)
    (roots gone : List String) (pm : List (String × List String))
    (hb : buildMaps env binfo = Except.ok (roots, gone, pm))
    (hnd : (binfo.map Prod.fst).Nodup)
    (hndpm : (keysOf pm).Nodup) :
    ∀ n b bi, (b, some bi) ∈ binfo → reaches_root env binfo n b = true →
      b ∈ (visits_roots (sortStrings roots) pm).1.map Prod.fst := by
  have hb2 : buildFold env binfo binfo ([], [], []) = Except.ok (roots, gone, pm) := hb
  intro n
  induction n with
  | zero =>
      intro b bi hmem hr
      simp [reaches_root] at hr
  | succ n ih =>
      intro b bi hmem hr
      have hd : dictGet binfo b = some (some bi) :=
        dictGet_of_mem_nodup binfo b (some bi) hnd hmem
      simp only [reaches_root, hd] at hr
      rcases hcp : computed_parent env binfo b with _ | p
      · rw [hcp] at hr
        cases hr
      · rw [hcp] at hr
        obtain ⟨parent, isRoot, markGone, hres, ⟨cs, hcs, hbcs⟩, hroot⟩ :=
          buildFold_mem env binfo binfo [] [] [] roots gone pm hb2 b bi hmem
        simp only [computed_parent, hd, hres, Option.some.injEq] at hcp
        subst hcp
        rcases hdp : dictGet binfo parent with _ | v
        · rcases isRoot with _ | _
          · obtain ⟨bj, hbj⟩ := resolveParent_not_root_full env binfo b bi parent
              markGone hres
            rw [hdp] at hbj
            cases hbj
          · have hpr : parent ∈ sortStrings roots :=
              (sortStrings_mem roots parent).mpr (hroot rfl)
            have hpv := visits_roots_root_visited (sortStrings roots) pm parent hpr
            have hnk := visits_roots_visited_not_key (sortStrings roots) pm parent
              hndpm hpv
            exact visits_roots_consumed (sortStrings roots) pm hndpm parent cs hcs
              hnk b hbcs
        · rcases v with _ | bj
          · rcases isRoot with _ | _
            · obtain ⟨bj, hbj⟩ := resolveParent_not_root_full env binfo b bi parent
                markGone hres
              rw [hdp] at hbj
              simp at hbj
            · have hpr : parent ∈ sortStrings roots :=
                (sortStrings_mem roots parent).mpr (hroot rfl)
              have hpv := visits_roots_root_visited (sortStrings roots) pm parent hpr
              have hnk := visits_roots_visited_not_key (sortStrings roots) pm parent
                hndpm hpv
              exact visits_roots_consumed (sortStrings roots) pm hndpm parent cs hcs
                hnk b hbcs
          · have hpmem : (parent, some bj) ∈ binfo := dictGet_mem binfo parent _ hdp
            have hpv := ih parent bj hpmem hr
            have hnk := visits_roots_visited_not_key (sortStrings roots) pm parent
              hndpm hpv
            exact visits_roots_consumed (sortStrings roots) pm hndpm parent cs hcs
              hnk b hbcs

/-- Under the well-formedness conditions, every branch with a truthy entry is visited exactly once. -/
theorem exactly_once (env : Env) (binfo : BranchesDict)
    (roots gone : List String) (pm : List (String × List String))
    (hb : buildMaps env binfo = Except.ok (roots, gone, pm))
    (hnd : (binfo.map Prod.fst).Nodup)
    (hndpm : (keysOf pm).Nodup)
    (hre : ∀ r ∈ roots, dictGet binfo r = some none)
    (b : String) (bi : BranchInfo) (hmem : (b, some bi) ∈ binfo)
    (hreach : reaches_root env binfo (binfo.length + 1) b = true) :
    countNames (visits_roots (sortStrings roots) pm).1 b = 1 := by
  have hb2 : buildFold env binfo binfo ([], [], []) = Except.ok (roots, gone, pm) := hb
  have hcount := buildFold_count env binfo binfo [] [] [] roots gone pm hb2 b
  have hinit : pmCountAll ([] : List (String × List String)) b = 0 := by
    simp [pmCountAll]
  have hfull1 : countFull binfo b = 1 :=
    Nat.le_antisymm (countFull_le_one binfo b hnd) (countFull_pos binfo b bi hmem)
  have hbroot : ¬ b ∈ roots := by
    intro hc
    have hge := hre b hc
    rw [dictGet_of_mem_nodup binfo b (some bi) hnd hmem] at hge
    simp at hge
  have hrc : (sortStrings roots).count b = 0 := by
    rw [sortStrings_count]
    exact List.count_eq_zero.mpr hbroot
  have hid := visits_roots_count (sortStrings roots) pm b
  have hmem_vis := full_consume env binfo roots gone pm hb hnd hndpm
    (binfo.length + 1) b bi hmem hreach
  have hpos : countNames (visits_roots (sortStrings roots) pm).1 b ≠ 0 := by
    intro h0
    simp only [countNames] at h0
    exact (List.count_eq_zero.mp h0) hmem_vis
  omega

/-! Claim theorems. -/

/-- C10: a visited node whose name is the empty string always renders with
name text `{NO_UPSTREAM}` — even when the empty string is also recorded in
the gone set, since the empty-name check comes after the gone-marker
check.  The only hypothesis is that the empty string is a key of the bulk
map (otherwise the visit itself raises `KeyError` before building a name);
the gone set is unconstrained. -/
theorem claim_C10_empty_name_renders_no_upstream (env : Env) (m : BranchMapper)
    (d : Nat) (bi0 : Option BranchInfo)
    (h : dictGet m.branches_info "" = some bi0) :
    (renderLine env m "" d).map (fun l => l.columns.head?) =
      Except.ok (some (indentOf d ++ "\x7bNO_UPSTREAM\x7d" ++
        (if ("" : String) == m.current_branch
            || (m.current_branch == "HEAD" && ("" : String) == m.current_hash)
         then " *" else ""))) := by
  have hinv : m.is_invalid_parent "" = true := by
    simp [BranchMapper.is_invalid_parent]
  have hbeq : (("" : String) == "") = true := rfl
  rcases bi0 with _ | bi
  · have hcolor := color_for_branch_invalid m "" (env.hash_one "") rfl rfl hinv
    simp only [renderLine, h, hcolor, hbeq, if_true, ite_true, Except.map]
    split_ifs <;> simp [OutputLine.append, OutputLine.mkEmpty]
  · have hcolor := color_for_branch_invalid m "" (some bi.hash) rfl rfl hinv
    simp only [renderLine, h, hcolor, hbeq, if_true, ite_true, Except.map]
    split_ifs <;> simp [OutputLine.append, OutputLine.mkEmpty]

/-- C2 (amended): the recorded upstream is used directly as the parent
exactly when the bulk map's entry for it is non-empty; when the key is
present but bound to an empty entry, on-demand live resolution is
consulted and its truthy result replaces the recorded upstream; when the
key is absent entirely the builder raises `KeyError` rather than
consulting live resolution.  The last conjunct ties the truthy case to the
final parent map of the builder. -/
theorem claim_C2_recorded_upstream_use :
    (∀ (env : Env) (binfo : BranchesDict) (branch : String) (bi : BranchInfo)
        (biU : BranchInfo),
      dictGet binfo bi.upstream = some (some biU) →
      resolveParent env binfo branch bi = Except.ok (bi.upstream, false, false)) ∧
    (∀ (env : Env) (binfo : BranchesDict) (branch : String) (bi : BranchInfo),
      dictGet binfo bi.upstream = some none →
      resolveParent env binfo branch bi = Except.ok
        (match env.upstream branch with
         | some u => if u != "" then (u, true, false) else (bi.upstream, true, true)
         | none => (bi.upstream, true, true))) ∧
    (∀ (env : Env) (binfo : BranchesDict) (branch : String) (bi : BranchInfo),
      dictGet binfo bi.upstream = none →
      resolveParent env binfo branch bi = Except.error PyErr.keyError) ∧
    (∀ (env : Env) (binfo : BranchesDict) (roots gone : List String)
        (pm : List (String × List String)) (branch : String)
        (bi biU : BranchInfo),
      buildMaps env binfo = Except.ok (roots, gone, pm) →
      (branch, some bi) ∈ binfo →
      dictGet binfo bi.upstream = some (some biU) →
      ∃ cs, (bi.upstream, cs) ∈ pm ∧ branch ∈ cs) := by
  refine ⟨?_, ?_, ?_, ?_⟩
  · intro env binfo branch bi biU h
    simp only [resolveParent, h]
  · intro env binfo branch bi h
    simp only [resolveParent, h]
    rcases env.upstream branch with _ | u
    · simp
    · simp only
      by_cases hu : u != ""
      · simp [hu]
      · simp only [hu, Bool.false_eq_true, if_false, ite_false]
  · intro env binfo branch bi h
    simp only [resolveParent, h]
  · intro env binfo roots gone pm branch bi biU hb hmem hd
    obtain ⟨parent, isRoot, markGone, hr, hcs, _⟩ :=
      buildFold_mem env binfo binfo [] [] [] roots gone pm hb branch bi hmem
    have : resolveParent env binfo branch bi = Except.ok (bi.upstream, false, false) := by
      simp only [resolveParent, hd]
    rw [this] at hr
    obtain ⟨rfl, rfl, rfl⟩ := Prod.mk.injEq .. ▸ (Except.ok.injEq .. ▸ hr.symm)
    exact hcs

/-- Witness for C2 (amended): in the healthy chain, `child`'s recorded
upstream `par` has a truthy entry, so it is used directly as the parent
and `child` is listed under `par` in the built map. -/
theorem claim_C2_witness :
    resolveParent exEnvH exBinfoH "child" (exBI "par" "c1") =
      Except.ok ((exBI "par" "c1").upstream, false, false) ∧
    ∃ cs, ((exBI "par" "c1").upstream, cs) ∈
        [("par", ["child"]), ("", ["par"])] ∧ "child" ∈ cs :=
  ⟨claim_C2_recorded_upstream_use.1 exEnvH exBinfoH "child" (exBI "par" "c1")
      (exBI "" "p1") rfl,
   claim_C2_recorded_upstream_use.2.2.2 exEnvH exBinfoH [""] [""]
      [("par", ["child"]), ("", ["par"])] "child" (exBI "par" "c1")
      (exBI "" "p1") rfl (by simp [exBinfoH]) rfl⟩

/-- Counterexample to C2 as stated: `origin/master` exists as a key of the
bulk map (with an empty entry), but the builder still consults live
resolution and parents `feature` under its result `live-br`, not under the
recorded upstream. -/
theorem claim_C2_counterexample :
    dictGet exBinfoC "origin/master" = some none ∧
    buildMaps exEnvC exBinfoC =
      Except.ok (["live-br"], [], [("live-br", ["feature"])]) :=
  ⟨rfl, rfl⟩

/-- C5 is a code bug: for the node `stray` (an empty bulk entry whose name
the tool cannot resolve to a hash, not gone, not remote/release-prefixed,
not a tag), the caught hash failure leaves a `None` hash that the color
classifier then passes to `startswith`, raising an uncaught `TypeError`
that aborts rendering — rather than the claimed empty hash column with the
traversal continuing. -/
theorem claim_C5_unresolvable_hash_typeerror :
    start exEnvB cfgPlain = Except.error PyErr.typeError := rfl

/-- C9 is a code bug: branch `a`'s live-resolved parent `b` is added to the
root set even though `b` has its own non-empty `BranchInfo` entry,
contradicting the claim (and the source's own comment that only a parent
that is not in the branches info is a root). -/
theorem claim_C9_live_resolved_root :
    buildMaps exEnvA exBinfoA =
      Except.ok (["b", "y"], ["y"], [("b", ["a"]), ("y", ["b"])]) ∧
    dictGet exBinfoA "b" = some (some (exBI "y" "2222")) :=
  ⟨rfl, rfl⟩

/-- Witness for C10: on a mapper that records the empty string both as a
key and in the gone set, the rendered name text is `{NO_UPSTREAM}`. -/
theorem claim_C10_witness :
    (renderLine exEnvE exMapperG "" 1).map (fun l => l.columns.head?) =
      Except.ok (some (indentOf 1 ++ "\x7bNO_UPSTREAM\x7d" ++
        (if ("" : String) == exMapperG.current_branch
            || (exMapperG.current_branch == "HEAD"
                && ("" : String) == exMapperG.current_hash)
         then " *" else ""))) :=
  claim_C10_empty_name_renders_no_upstream exEnvE exMapperG 1 none rfl

/-- C4: with tracking-status verbosity enabled and a branch whose entry is
truthy with a valid (non-gone, non-empty) upstream: ahead 3 / behind 0
gives sub-cells `[`, `ahead 3`, empty bar, empty behind, `]`; ahead 2 /
behind 5 gives `[`, `ahead 2`, `|`, `behind 5`, `]`; ahead 0 / behind 0
gives all five sub-cells empty; the center bar is present exactly when
both counts are non-zero and the brackets exactly when at least one count
is non-zero.  The second conjunct ties the five sub-cells to the columns
of the row built by `renderLine` at verbosity at least 1. -/
theorem claim_C4_tracking_column :
    (∀ (m : BranchMapper) (bi : BranchInfo),
      m.is_invalid_parent bi.upstream = false →
      ((bi.ahead = 3 ∧ bi.behind = 0) →
          tracking_strings m (some bi) = ("[", "ahead 3", "", "", "]")) ∧
      ((bi.ahead = 2 ∧ bi.behind = 5) →
          tracking_strings m (some bi) = ("[", "ahead 2", "|", "behind 5", "]")) ∧
      ((bi.ahead = 0 ∧ bi.behind = 0) →
          tracking_strings m (some bi) = ("", "", "", "", "")) ∧
      ((tracking_strings m (some bi)).2.2.1 =
          (if bi.ahead ≠ 0 ∧ bi.behind ≠ 0 then "|" else "")) ∧
      ((tracking_strings m (some bi)).1 =
          (if bi.ahead ≠ 0 ∨ bi.behind ≠ 0 then "[" else "")) ∧
      ((tracking_strings m (some bi)).2.2.2.2 =
          (if bi.ahead ≠ 0 ∨ bi.behind ≠ 0 then "]" else ""))) ∧
    (∀ (env : Env) (m : BranchMapper) (branch : String) (d : Nat)
        (binfo : Option BranchInfo) (line : OutputLine),
      1 ≤ m.verbosity →
      dictGet m.branches_info branch = some binfo →
      renderLine env m branch d = Except.ok line →
      (line.columns.drop (if 2 ≤ m.verbosity then 2 else 1)).take 5 =
        [(tracking_strings m binfo).1, (tracking_strings m binfo).2.1,
         (tracking_strings m binfo).2.2.1, (tracking_strings m binfo).2.2.2.1,
         (tracking_strings m binfo).2.2.2.2]) := by
  constructor
  · intro m bi hval
    obtain ⟨hsh, up, ah, bh⟩ := bi
    have e3 : "ahead " ++ toString (3 : Nat) = "ahead 3" := rfl
    have e2 : "ahead " ++ toString (2 : Nat) = "ahead 2" := rfl
    have e5 : "behind " ++ toString (5 : Nat) = "behind 5" := rfl
    refine ⟨?_, ?_, ?_, ?_, ?_, ?_⟩
    · rintro ⟨rfl, rfl⟩
      simp [tracking_strings, hval, e3]
    · rintro ⟨rfl, rfl⟩
      simp [tracking_strings, hval, e2, e5]
    · rintro ⟨rfl, rfl⟩
      simp [tracking_strings, hval]
    all_goals
      rcases Nat.eq_zero_or_pos ah with rfl | hah
    all_goals
      rcases Nat.eq_zero_or_pos bh with rfl | hbh
    all_goals
      simp [tracking_strings, hval]
  · intro env m branch d binfo line hv hdict hline
    rcases binfo with _ | bi
    · simp only [renderLine, hdict] at hline
      rcases hcv : m.color_for_branch branch (env.hash_one branch) with e | color
      · rw [hcv] at hline
        cases hline
      · rw [hcv] at hline
        simp only [hv, if_true, ite_true] at hline
        by_cases h2v : 2 ≤ m.verbosity <;>
          by_cases hss : m.show_subject = true <;>
            · simp only [h2v, hss, if_true, if_false, ite_true, ite_false,
                Bool.not_eq_true] at hline ⊢
              cases hline
              simp [OutputLine.append, OutputLine.mkEmpty]
    · simp only [renderLine, hdict] at hline
      rcases hcv : m.color_for_branch branch (some bi.hash) with e | color
      · rw [hcv] at hline
        cases hline
      · rw [hcv] at hline
        simp only [hv, if_true, ite_true] at hline
        by_cases h2v : 2 ≤ m.verbosity <;>
          by_cases hss : m.show_subject = true <;>
            · simp only [h2v, hss, if_true, if_false, ite_true, ite_false,
                Bool.not_eq_true] at hline ⊢
              cases hline
              simp [OutputLine.append, OutputLine.mkEmpty]

/-- Witness for C4 at ahead 3 / behind 0 with a valid upstream, both for
the sub-cell contents and for their positions in the rendered row. -/
theorem claim_C4_witness :
    tracking_strings exMapperF (some exBIF) = ("[", "ahead 3", "", "", "]") ∧
    (exLineF.columns.drop (if 2 ≤ exMapperF.verbosity then 2 else 1)).take 5 =
      [(tracking_strings exMapperF (some exBIF)).1,
       (tracking_strings exMapperF (some exBIF)).2.1,
       (tracking_strings exMapperF (some exBIF)).2.2.1,
       (tracking_strings exMapperF (some exBIF)).2.2.2.1,
       (tracking_strings exMapperF (some exBIF)).2.2.2.2] :=
  ⟨(claim_C4_tracking_column.1 exMapperF exBIF rfl).1 ⟨rfl, rfl⟩,
   claim_C4_tracking_column.2 exEnvE exMapperF "f" 0 (some exBIF) exLineF
     (by decide) rfl rfl⟩

/-- C8 (amended): at verbosity at least 2, when no review URL is found the
review-status column shows `None` exactly when the rendered node itself is
not a gone/empty placeholder, and empty text exactly when the node itself
is invalid — the check applies to the node being rendered, not to its
upstream. -/
theorem claim_C8_review_none_text (env : Env) (m : BranchMapper) (branch : String)
    (d : Nat) (line : OutputLine)
    (hv : 2 ≤ m.verbosity)
    (hurl : (m.status_info branch).1 = none ∨ (m.status_info branch).1 = some "")
    (hline : renderLine env m branch d = Except.ok line) :
    line.columns.get? 7 = some (if m.is_invalid_parent branch then "" else "None") := by
  have hv1 : 1 ≤ m.verbosity := le_trans (by omega) hv
  rcases hd : dictGet m.branches_info branch with _ | binfo
  · simp only [renderLine, hd] at hline
    cases hline
  rcases hst : m.status_info branch with ⟨url, c2⟩
  rw [hst] at hurl
  simp only at hurl
  rcases binfo with _ | bi
  · simp only [renderLine, hd, hst] at hline
    rcases hcv : m.color_for_branch branch (env.hash_one branch) with e | color
    · rw [hcv] at hline
      cases hline
    · rw [hcv] at hline
      simp only [hv, hv1, if_true, ite_true] at hline
      by_cases hss : m.show_subject = true <;>
        · simp only [hss, if_true, if_false, ite_true, ite_false,
            Bool.not_eq_true] at hline
          cases hline
          rcases hurl with rfl | rfl <;>
            by_cases hinv : m.is_invalid_parent branch = true <;>
              simp [OutputLine.append, OutputLine.mkEmpty, hinv]
  · simp only [renderLine, hd, hst] at hline
    rcases hcv : m.color_for_branch branch (some bi.hash) with e | color
    · rw [hcv] at hline
      cases hline
    · rw [hcv] at hline
      simp only [hv, hv1, if_true, ite_true] at hline
      by_cases hss : m.show_subject = true <;>
        · simp only [hss, if_true, if_false, ite_true, ite_false,
            Bool.not_eq_true] at hline
          cases hline
          rcases hurl with rfl | rfl <;>
            by_cases hinv : m.is_invalid_parent branch = true <;>
              simp [OutputLine.append, OutputLine.mkEmpty, hinv]

/-- Witness for C8 (amended): on the concrete mapper whose branch `b` has
a gone upstream, the rendered node `b` is itself valid, so the review
column shows `None`. -/
theorem claim_C8_witness :
    exLineE.columns.get? 7 =
      some (if exMapperE.is_invalid_parent "b" then "" else "None") :=
  claim_C8_review_none_text exEnvE exMapperE "b" 0 exLineE (by decide)
    (Or.inl rfl) rfl

/-- Counterexample to C8 as stated: branch `b` has upstream `up`, which is
recorded as gone (so the parent is invalid), no review URL was found, and
yet the review column shows `None` rather than the claimed empty text. -/
theorem claim_C8_counterexample :
    exMapperE.is_invalid_parent (exBI "up" "abc1").upstream = true ∧
    (renderLine exEnvE exMapperE "b" 0).map (fun l => l.columns.get? 7) =
      Except.ok (some "None") :=
  ⟨rfl, rfl⟩


/-- C6: within one rendering run every row built by the presentation
engine has the same number of columns, so the output manager's
column-count assertion can never fire: no run of `start`, whatever the
environment and configuration, returns the assertion failure. -/
theorem claim_C6_column_count_consistent (env : Env) (cfg : Config) :
    start env cfg ≠ Except.error PyErr.assertionError := by
  simp only [start]
  rcases hb : buildMaps env (env.get_branches_info (decide (1 ≤ cfg.verbosity)))
    with e | trip
  · intro hcon
    injection hcon with he
    subst he
    cases buildFold_error env _ _ _ _ hb
  · obtain ⟨roots, gone, pm⟩ := trip
    rcases hh : env.hash_one "HEAD" with _ | curHash
    · intro hcon
      injection hcon with he
      cases he
    · rcases roots with _ | ⟨r, rs⟩
      · obtain ⟨out, ho, _, _, _⟩ := om_append_ok (OutputManager.init cfg.nocolor)
          (OutputLine.mkEmpty.append "No User Branches" DEFAULT_SEPARATOR Fore.WHITE)
          (Or.inl rfl)
        simp only [ho]
        intro hcon
        cases hcon
      · exact except_out_match_ne _ _
          (rootsLoop_no_assert env (sortStrings (r :: rs)) _ (Or.inl rfl))

/-- C3 (amended): the consume-once pop makes the traversal terminate on
every input (the fuel marker is unreachable), and each branch is rendered
at most once provided no computed root also occurs in a children list —
the disjointness can only fail through the live-re-resolution root bug,
in which case a branch is rendered once as a root and once as a child
(see the counterexample). -/
theorem claim_C3_consume_once_traversal :
    (∀ (env : Env) (cfg : Config), start env cfg ≠ Except.error PyErr.outOfFuel) ∧
    (∀ (env : Env) (cfg : Config), wf_disjoint env cfg = true →
      ∀ b, countNames (run_visits env cfg) b ≤ 1) := by
  constructor
  · intro env cfg
    simp only [start]
    rcases hb : buildMaps env (env.get_branches_info (decide (1 ≤ cfg.verbosity)))
      with e | trip
    · intro hcon
      injection hcon with he
      subst he
      cases buildFold_error env _ _ _ _ hb
    · obtain ⟨roots, gone, pm⟩ := trip
      rcases hh : env.hash_one "HEAD" with _ | curHash
      · intro hcon
        injection hcon with he
        cases he
      · rcases roots with _ | ⟨r, rs⟩
        · obtain ⟨out, ho, _, _, _⟩ := om_append_ok (OutputManager.init cfg.nocolor)
            (OutputLine.mkEmpty.append "No User Branches" DEFAULT_SEPARATOR Fore.WHITE)
            (Or.inl rfl)
          simp only [ho]
          intro hcon
          cases hcon
        · exact except_out_match_ne _ _
            (rootsLoop_no_fuel env (sortStrings (r :: rs)) _)
  · intro env cfg hwf b
    simp only [wf_disjoint] at hwf
    rcases hb : buildMaps env (env.get_branches_info (decide (1 ≤ cfg.verbosity)))
      with e | trip
    · rw [hb] at hwf
      simp at hwf
    · obtain ⟨roots, gone, pm⟩ := trip
      rw [hb] at hwf
      rcases Bool.and_eq_true .. ▸ hwf with ⟨hnd, hall⟩
      have hndk : ((env.get_branches_info (decide (1 ≤ cfg.verbosity))).map Prod.fst).Nodup :=
        of_decide_eq_true hnd
      simp only [run_visits, built, hb]
      rcases roots with _ | ⟨r, rs⟩
      · simp [countNames]
      · show countNames (visits_roots (sortStrings (r :: rs)) pm).1 b ≤ 1
        have hcnt := visits_roots_count (sortStrings (r :: rs)) pm b
        have hsort := sortStrings_count (r :: rs) b
        have hpm : pmCountAll pm b = countFull
            (env.get_branches_info (decide (1 ≤ cfg.verbosity))) b := by
          have := buildFold_count env _ _ [] [] [] (r :: rs) gone pm hb b
          simpa [pmCountAll] using this
        have hpmle : pmCountAll pm b ≤ 1 := by
          rw [hpm]
          exact countFull_le_one _ b hndk
        have hrnd : (r :: rs).Nodup :=
          buildFold_roots_nodup env _ _ [] [] [] (r :: rs) gone pm hb (List.nodup_nil)
        have hrle : (r :: rs).count b ≤ 1 := nodup_count_le_one _ hrnd b
        by_cases hmem : b ∈ (r :: rs)
        · have hz : pmCountAll pm b = 0 := by
            simpa using List.all_eq_true.mp hall b hmem
          omega
        · have hz : (r :: rs).count b = 0 := List.count_eq_zero.mpr hmem
          omega

/-- Witness for C3 (amended): the healthy chain satisfies the
disjointness side condition, and its branch `child` is visited at most
once. -/
theorem claim_C3_witness :
    countNames (run_visits exEnvH cfgPlain) "child" ≤ 1 :=
  claim_C3_consume_once_traversal.2 exEnvH cfgPlain rfl "child"

/-- Counterexample to C3 as stated: with a live resolver that maps `a` to
the fully-listed branch `b`, branch `b` is rendered twice — once as a
root and once as a child of the gone placeholder `y` — so the depth-first
traversal does not render each branch at most once. -/
theorem claim_C3_counterexample :
    (start exEnvA cfgPlain).map (fun om => om.lines.map OutputLine.columns) =
      Except.ok [["b"], ["  a"], ["\x7by:GONE\x7d"], ["  b"]] := rfl

/-- Claim C7: for every well-formed row sequence that the colored manager
accepts, the no-color manager accepts it too with exactly the same column
widths, and its formatted output is, line by line, the colored line with
all color escape sequences removed and trailing whitespace stripped.  (The
claim's literal reading -- plain escape removal with spacing preserved --
fails: see the counterexample.) -/
theorem claim_C7_nocolor_strip (rows : List OutputLine) (omC omN : OutputManager)
    (hwf : rows.all wellFormedLine = true)
    (hC : append_all (OutputManager.init false) rows = Except.ok omC)
    (hN : append_all (OutputManager.init true) rows = Except.ok omN) :
    omN.max_column_lengths = omC.max_column_lengths ∧
    omN.as_formatted_string = joinWithNewlines (omC.lines.map
      (fun l => pyRstrip (stripEscapes
        (l.as_padded_string omC.max_column_lengths)))) := by
  obtain ⟨oN, hoN, hL, hmx, _, _, _⟩ :=
    append_all_pair rows (OutputManager.init false) (OutputManager.init true)
      rfl rfl rfl rfl rfl omC hC
  rw [hoN] at hN
  cases hN
  refine ⟨hmx, ?_⟩
  have hlines := append_all_plain rows (OutputManager.init false) omC rfl hC
  simp only [OutputManager.init, List.nil_append] at hlines
  simp only [OutputManager.as_formatted_string, hL, hmx, List.map_map]
  congr 1
  apply List.map_congr_left
  intro l hl
  have hwfl : wellFormedLine l = true := by
    apply List.all_eq_true.mp hwf
    rw [hlines] at hl
    exact hl
  exact line_nocolor_strip l omC.max_column_lengths hwfl

/-- Witness for C7: the two concrete example lines are well formed, and the
theorem applies to their two concrete manager runs. -/
theorem claim_C7_witness :
    [exLine1, exLine2].all wellFormedLine = true ∧
    (exOmN.max_column_lengths = exOmC.max_column_lengths ∧
    exOmN.as_formatted_string = joinWithNewlines (exOmC.lines.map
      (fun l => pyRstrip (stripEscapes
        (l.as_padded_string exOmC.max_column_lengths))))) :=
  ⟨rfl, claim_C7_nocolor_strip [exLine1, exLine2] exOmC exOmN rfl rfl rfl⟩

/-- Counterexample to C7 as stated: on the two example lines, removing the
escape sequences from the colored formatted output leaves trailing padding
spaces (they are shielded from the per-line rstrip by the trailing color
codes), while the no-color formatted output has them stripped, so the two
texts differ. -/
theorem claim_C7_counterexample :
    (append_all (OutputManager.init false) [exLine1, exLine2]).map
      (fun om => stripEscapes om.as_formatted_string) =
        Except.ok "abc    \na      x" ∧
    (append_all (OutputManager.init true) [exLine1, exLine2]).map
      OutputManager.as_formatted_string = Except.ok "abc\na      x" ∧
    ("abc    \na      x" : String) ≠ "abc\na      x" :=
  ⟨rfl, rfl, by decide⟩

/-- Claim C1 (amended): under the well-formedness side conditions --
duplicate-free keys, a resolvable HEAD, a build whose roots are external
entries that render safely, and an acyclic tracking graph -- the run
succeeds, every branch with a truthy entry is visited exactly once, the
output rows are exactly the rendered rows of the visit order (or the
single sentinel row when there are no roots), and an empty input yields
exactly the sentinel.  The claim's unconditional reading fails: see the
counterexample. -/
theorem claim_C1_unique_rows (env : Env) (cfg : Config) (h : wfC1 env cfg = true) :
    ∃ om m0, start env cfg = Except.ok om ∧ mapper0 env cfg = some m0 ∧
      om.lines.map OutputLine.columns =
        (if (built env cfg).1 = [] then [["No User Branches"]]
         else (run_visits env cfg).map (rendered_columns env m0)) ∧
      (∀ b bi, (b, some bi) ∈ env.get_branches_info (decide (1 ≤ cfg.verbosity)) →
        countNames (run_visits env cfg) b = 1) ∧
      (env.get_branches_info (decide (1 ≤ cfg.verbosity)) = [] →
        om.lines.map OutputLine.columns = [["No User Branches"]]) := by
  simp only [wfC1] at h
  have h1 := Bool.and_eq_true .. ▸ h
  have h2 := Bool.and_eq_true .. ▸ h1.1
  have hnd : ((env.get_branches_info (decide (1 ≤ cfg.verbosity))).map Prod.fst).Nodup :=
    of_decide_eq_true h2.1
  have hHEAD := h2.2
  have hmatch := h1.2
  rcases hb : buildMaps env (env.get_branches_info (decide (1 ≤ cfg.verbosity)))
    with e | rgp
  · rw [hb] at hmatch
    cases hmatch
  obtain ⟨roots, gone, pm⟩ := rgp
  rw [hb] at hmatch
  have h3 := Bool.and_eq_true .. ▸ hmatch
  have hroots := h3.1
  have hreach := h3.2
  rcases hh : env.hash_one "HEAD" with _ | curHash
  · rw [hh] at hHEAD
    cases hHEAD
  have hb2 : buildFold env (env.get_branches_info (decide (1 ≤ cfg.verbosity)))
      (env.get_branches_info (decide (1 ≤ cfg.verbosity))) ([], [], []) =
      Except.ok (roots, gone, pm) := hb
  have hndpm : (keysOf pm).Nodup :=
    buildFold_keys_nodup env _ _ [] [] [] roots gone pm hb2 (by simp [keysOf])
  set M : BranchMapper :=
    { verbosity := cfg.verbosity
      show_subject := cfg.show_subject
      output := OutputManager.init cfg.nocolor
      gone_branches := gone
      branches_info := env.get_branches_info (decide (1 ≤ cfg.verbosity))
      parent_map := pm
      current_branch := env.current_branch
      current_hash := curHash
      tag_set := env.tags
      status_info :=
        if 2 ≤ cfg.verbosity then env.status_info
        else fun _ => (none, "") } with hM
  have hm0 : mapper0 env cfg = some M := by
    simp only [mapper0, hb, hh]
  have hre : ∀ r ∈ roots, dictGet (env.get_branches_info (decide (1 ≤ cfg.verbosity)))
      r = some none := by
    intro r hr
    have hcond := List.all_eq_true.mp hroots r hr
    have hc1 := Bool.and_eq_true .. ▸ hcond
    exact eq_of_beq hc1.1
  have hren : ∀ p ∈ (visits_roots (sortStrings roots) pm).1,
      ∃ l, renderLine env M p.1 p.2 = Except.ok l := by
    intro p hp
    have hpn : p.1 ∈ (visits_roots (sortStrings roots) pm).1.map Prod.fst :=
      List.mem_map_of_mem Prod.fst hp
    rcases visits_roots_names (sortStrings roots) pm p.1 hpn with hroot | ⟨e2, he2, hx2⟩
    · have hrr : p.1 ∈ roots := (sortStrings_mem roots p.1).mp hroot
      have hcond := List.all_eq_true.mp hroots p.1 hrr
      have hc1 := Bool.and_eq_true .. ▸ hcond
      exact renderLine_empty_ok env M p.1 p.2 (eq_of_beq hc1.1) hc1.2
    · obtain ⟨bi2, hbi2⟩ := buildFold_values_full env _ _ [] [] [] roots gone pm hb2
        (fun b bi hm => ⟨bi, hm⟩) (fun k cs x hm hx => by cases hm)
        e2.1 e2.2 p.1 (by rcases e2 with ⟨k2, cs2⟩; exact he2) hx2
      exact renderLine_full_ok env M p.1 p.2 bi2
        (dictGet_of_mem_nodup _ p.1 (some bi2) hnd hbi2)
  rcases roots with _ | ⟨r0, rs0⟩
  · obtain ⟨out, ho, hlines, _, _⟩ := om_append_ok (OutputManager.init cfg.nocolor)
      (OutputLine.mkEmpty.append "No User Branches" DEFAULT_SEPARATOR Fore.WHITE)
      (Or.inl rfl)
    refine ⟨out, M, ?_, hm0, ?_, ?_, ?_⟩
    · simp only [start, hb, hh]
      rw [ho]
    · have hbuilt : (built env cfg).1 = [] := by
        simp [built, hb]
      rw [if_pos hbuilt, hlines]
      simp [OutputLine.append, OutputLine.mkEmpty, OutputManager.init]
    · intro b bi hmemb
      have hq := List.all_eq_true.mp hreach (b, some bi) hmemb
      have hq2 : reaches_root env (env.get_branches_info (decide (1 ≤ cfg.verbosity)))
          ((env.get_branches_info (decide (1 ≤ cfg.verbosity))).length + 1) b = true := by
        simpa using hq
      have hv := full_consume env _ [] gone pm hb hnd hndpm _ b bi hmemb hq2
      simp [sortStrings, visits_roots] at hv
    · intro _
      rw [hlines]
      simp [OutputLine.append, OutputLine.mkEmpty, OutputManager.init]
  · have hMeq : M.withOP (OutputManager.init cfg.nocolor) pm = M := rfl
    obtain ⟨o2, hloop, hl2, _⟩ := rootsLoop_sim env M (sortStrings (r0 :: rs0))
      (OutputManager.init cfg.nocolor) pm (Or.inl rfl) hren
    rw [hMeq] at hloop
    have hrv : run_visits env cfg = (visits_roots (sortStrings (r0 :: rs0)) pm).1 := by
      simp [run_visits, built, hb]
    refine ⟨o2, M, ?_, hm0, ?_, ?_, ?_⟩
    · simp only [start, hb, hh]
      rw [hloop]
      rfl
    · have hbuilt : ¬ (built env cfg).1 = [] := by
        simp [built, hb]
      rw [if_neg hbuilt, hrv, hl2]
      simp [OutputManager.init]
    · intro b bi hmemb
      have hq := List.all_eq_true.mp hreach (b, some bi) hmemb
      have hq2 : reaches_root env (env.get_branches_info (decide (1 ≤ cfg.verbosity)))
          ((env.get_branches_info (decide (1 ≤ cfg.verbosity))).length + 1) b = true := by
        simpa using hq
      rw [hrv]
      exact exactly_once env _ (r0 :: rs0) gone pm hb hnd hndpm hre b bi hmemb hq2
    · intro hbe
      rw [hbe] at hb
      simp [buildMaps, buildFold] at hb

/-- Witness for C1: the healthy chain instance satisfies the side
conditions and the theorem applies to it. -/
theorem claim_C1_witness :
    wfC1 exEnvH cfgPlain = true ∧
    (∃ om m0, start exEnvH cfgPlain = Except.ok om ∧
      mapper0 exEnvH cfgPlain = some m0 ∧
      om.lines.map OutputLine.columns =
        (if (built exEnvH cfgPlain).1 = [] then [["No User Branches"]]
         else (run_visits exEnvH cfgPlain).map (rendered_columns exEnvH m0)) ∧
      (∀ b bi, (b, some bi) ∈ exEnvH.get_branches_info (decide (1 ≤ cfgPlain.verbosity)) →
        countNames (run_visits exEnvH cfgPlain) b = 1) ∧
      (exEnvH.get_branches_info (decide (1 ≤ cfgPlain.verbosity)) = [] →
        om.lines.map OutputLine.columns = [["No User Branches"]])) :=
  ⟨rfl, claim_C1_unique_rows exEnvH cfgPlain rfl⟩

/-- Counterexample to C1 as stated: on a two-branch upstream cycle the
build raises no error but produces no roots, so the output is only the
sentinel row and branch `a`, which has a truthy entry, appears in no
output row. -/
theorem claim_C1_counterexample :
    (start exEnvD cfgPlain).map (fun om => om.lines.map OutputLine.columns) =
      Except.ok [["No User Branches"]] ∧
    ("a", some (exBI "b" "1111")) ∈ exBinfoD ∧
    countNames (run_visits exEnvD cfgPlain) "a" = 0 :=
  ⟨rfl, by simp [exBinfoD], rfl⟩

end GitMapBranches
